import Mathlib

/-!
Verification of the iterset library (lazy set algebra over maps and iterators).

The Go source is shallowly embedded: an `iter.Seq[K]` consumed to completion
becomes a `List K`; a `MapSet[K, struct{}]` (a Go map used as a set, with
`add`/`pop`/`len`) becomes a `Finset K`; a `MapSet[K, V]` with relevant values
becomes an association list `List (K × V)`; a Go `map[K]int` counter becomes an
association list `List (K × Int)` mirroring the map's get/set/delete/len
operations.  Mutation is embedded by explicit state passing, and early
`return`s in the Go iterator bodies become the corresponding truncations of the
produced list.
-/

set_option linter.unusedSectionVars false
set_option linter.unnecessarySimpa false
set_option linter.unusedVariables false

namespace Iterset

variable {K : Type} [DecidableEq K]

/-- Embeds `zipSource` (iterset.go): `index` tells which sequence the value is
from (`false` = the `keys` argument, Go `0`; `true` = the `seq` argument,
Go `1`), `empty` whether the other sequence is empty. -/
structure zipSource where
  index : Bool
  empty : Bool
  deriving DecidableEq, Repr

/-- Embeds `zip` (iterset.go): pull one element of `seq` per element of `keys`,
emitting the key (tagged with whether the pull failed) and then the pulled
element; once `keys` is exhausted, drain `seq` with `empty` set. -/
def zip : List K → List K → List (K × zipSource)
  | [], seq => seq.map (fun k => (k, ⟨true, true⟩))
  | key :: keys, [] => (key, ⟨false, true⟩) :: zip keys []
  | key :: keys, k :: seq => (key, ⟨false, false⟩) :: (k, ⟨true, false⟩) :: zip keys seq

theorem zip_nil_right (keys : List K) :
    zip keys [] = keys.map (fun k => (k, ⟨false, true⟩)) := by
  induction keys with
  | nil => rfl
  | cons k ks ih => simp [zip, ih]

/-- Closed form of `zip`: the interleaved part on the common length, then the
leftover of whichever input is longer, tagged with `empty := true`. -/
theorem zip_eq (keys seq : List K) :
    zip keys seq =
      (List.zip keys seq).flatMap
          (fun p => [(p.1, ⟨false, false⟩), (p.2, ⟨true, false⟩)]) ++
        (keys.drop seq.length).map (fun k => (k, ⟨false, true⟩)) ++
        (seq.drop keys.length).map (fun k => (k, ⟨true, true⟩)) := by
  induction keys generalizing seq with
  | nil => simp [zip]
  | cons key keys ih =>
    cases seq with
    | nil => simp [zip, zip_nil_right]
    | cons k seq => simp [zip, ih]

/-- Loop body of `Unique` (iterset.go): the yielded closure allocates a fresh
seen-set `s`, yields a key when it is missing from `s`, and then adds it. -/
def uniqueAux (s : Finset K) : List K → List K
  | [] => []
  | key :: keys =>
    if key ∉ s then key :: uniqueAux (insert key s) keys
    else uniqueAux (insert key s) keys

/-- Embeds `Unique` (iterset.go): keys in order without duplicates. -/
def Unique (keys : List K) : List K := uniqueAux ∅ keys

theorem uniqueAux_nodup_notmem (keys : List K) :
    ∀ s : Finset K, (uniqueAux s keys).Nodup ∧ ∀ k ∈ uniqueAux s keys, k ∉ s := by
  induction keys with
  | nil => intro s; simp [uniqueAux]
  | cons key keys ih =>
    intro s
    by_cases h : key ∈ s
    · have := ih (insert key s)
      refine ⟨(by simpa [uniqueAux, h] using this.1), ?_⟩
      intro k hk hks
      exact this.2 k (by simpa [uniqueAux, h] using hk) (Finset.mem_insert_of_mem hks)
    · have := ih (insert key s)
      constructor
      · simp only [uniqueAux, if_pos h, List.nodup_cons]
        exact ⟨fun hmem => (this.2 key hmem) (Finset.mem_insert_self key s), this.1⟩
      · intro k hk hks
        simp only [uniqueAux, if_pos h, List.mem_cons] at hk
        rcases hk with rfl | hk
        · exact h hks
        · exact this.2 k hk (Finset.mem_insert_of_mem hks)

theorem uniqueAux_of_nodup (keys : List K) :
    ∀ s : Finset K, keys.Nodup → (∀ k ∈ keys, k ∉ s) → uniqueAux s keys = keys := by
  induction keys with
  | nil => intro s _ _; rfl
  | cons key keys ih =>
    intro s hnd hdisj
    have hkey : key ∉ s := hdisj key (List.mem_cons_self key keys)
    have hrest : ∀ k ∈ keys, k ∉ insert key s := by
      intro k hk
      simp only [Finset.mem_insert, not_or]
      exact ⟨fun h => (List.nodup_cons.1 hnd).1 (h ▸ hk), hdisj k (List.mem_cons_of_mem _ hk)⟩
    simp [uniqueAux, hkey, ih (insert key s) (List.nodup_cons.1 hnd).2 hrest]

theorem Unique_nodup (keys : List K) : (Unique keys).Nodup :=
  (uniqueAux_nodup_notmem keys ∅).1

theorem Unique_idem (keys : List K) : Unique (Unique keys) = Unique keys :=
  uniqueAux_of_nodup (Unique keys) ∅ (Unique_nodup keys) (by simp)

/-- Loop of the method `MapSet.Equal` (iterset.go): for each key, add it to the
seen-set `s` and require membership in the receiver `m`, short-circuiting on
the first missing key; at the end compare `len(m)` with `len(s)`.  The
receiver map is embedded as its key list `m` (values are irrelevant here), so
`len(m)` is `m.length` and membership is list membership. -/
def mapSetEqualAux (m : List K) (s : Finset K) : List K → Bool
  | [] => m.length == s.card
  | key :: keys =>
    if key ∈ m then mapSetEqualAux m (insert key s) keys else false

/-- Embeds the method `MapSet.Equal` (iterset.go). -/
def mapSetEqual (m : List K) (keys : List K) : Bool := mapSetEqualAux m ∅ keys

theorem mapSetEqualAux_eq (m : List K) (keys : List K) :
    ∀ s : Finset K,
      mapSetEqualAux m s keys = true ↔
        (∀ k ∈ keys, k ∈ m) ∧ m.length = (s ∪ keys.toFinset).card := by
  induction keys with
  | nil => intro s; simp [mapSetEqualAux]
  | cons key keys ih =>
    intro s
    by_cases h : key ∈ m
    · have hset : insert key s ∪ keys.toFinset = s ∪ (key :: keys).toFinset := by
        ext a; simp [or_assoc, or_left_comm]
      rw [mapSetEqualAux, if_pos h, ih (insert key s), hset]
      constructor
      · rintro ⟨h1, h2⟩
        refine ⟨?_, h2⟩
        intro k hk
        rcases List.mem_cons.1 hk with rfl | hk
        · exact h
        · exact h1 k hk
      · rintro ⟨h1, h2⟩
        exact ⟨fun k hk => h1 k (List.mem_cons_of_mem _ hk), h2⟩
    · simp only [mapSetEqualAux, if_neg h]
      constructor
      · intro hfalse; exact absurd hfalse (by simp)
      · rintro ⟨h1, _⟩
        exact absurd (h1 key (List.mem_cons_self key keys)) h

theorem mapSetEqual_iff (m : List K) (keys : List K) (hm : m.Nodup) :
    mapSetEqual m keys = true ↔ m.toFinset = keys.toFinset := by
  rw [mapSetEqual, mapSetEqualAux_eq]
  simp only [Finset.empty_union]
  constructor
  · rintro ⟨hsub, hcard⟩
    have hsub' : keys.toFinset ⊆ m.toFinset := by
      intro a ha
      exact List.mem_toFinset.2 (hsub a (List.mem_toFinset.1 ha))
    have hlen : m.toFinset.card = m.length := by
      rw [List.toFinset_card_of_nodup hm]
    exact (Finset.eq_of_subset_of_card_le hsub' (by omega)).symm
  · intro heq
    constructor
    · intro k hk
      have : k ∈ keys.toFinset := List.mem_toFinset.2 hk
      rw [← heq] at this
      exact List.mem_toFinset.1 this
    · rw [← heq, List.toFinset_card_of_nodup hm]

/-- One loop step of the free function `Equal` (iterset.go): pop the key from
the other source's pending set (moving it to the matched set `s2`), otherwise
record it in its own pending set unless already matched. `s0` is `sets[0]`
(pending keys seen only from `keys`), `s1` is `sets[1]` (pending keys seen only
from `seq`), `s2` is `sets[2]` (matched keys). -/
def equalStep (key : K) (src : zipSource) (s0 s1 s2 : Finset K) :
    Finset K × Finset K × Finset K :=
  if src.index then
    if key ∈ s0 then (s0.erase key, s1, insert key s2)
    else if key ∉ s2 then (s0, insert key s1, s2)
    else (s0, s1, s2)
  else
    if key ∈ s1 then (s0, s1.erase key, insert key s2)
    else if key ∉ s2 then (insert key s0, s1, s2)
    else (s0, s1, s2)

/-- Loop of the free function `Equal` (iterset.go) over the zipped pairs,
including the early `return false` when a source is exhausted while the other
side still has pending unmatched keys, and the final emptiness test of both
pending sets. -/
def equalAux : List (K × zipSource) → Finset K → Finset K → Finset K → Bool
  | [], s0, s1, _ => (s0.card + s1.card) == 0
  | (key, src) :: rest, s0, s1, s2 =>
    let t := equalStep key src s0 s1 s2
    if src.empty ∧ 0 < (if src.index then t.2.1 else t.1).card then false
    else equalAux rest t.1 t.2.1 t.2.2

/-- Embeds the free function `Equal` (iterset.go). -/
def Equal (keys seq : List K) : Bool := equalAux (zip keys seq) ∅ ∅ ∅

theorem equalStep_A (x : K) (e : Bool) (pA pB : Finset K) :
    equalStep x ⟨false, e⟩ (pA \ pB) (pB \ pA) (pA ∩ pB) =
      (insert x pA \ pB, pB \ insert x pA, insert x pA ∩ pB) := by
  simp only [equalStep, Bool.false_eq_true, if_false]
  by_cases hB : x ∈ pB <;> by_cases hA : x ∈ pA
  · rw [if_neg (by simp [hA]), if_neg (by simp [hA, hB])]
    refine Prod.ext ?_ (Prod.ext ?_ ?_) <;> simp <;> ext a <;>
      by_cases ha : a = x <;> simp [ha, hA, hB]
  · rw [if_pos (by simp [hA, hB])]
    refine Prod.ext ?_ (Prod.ext ?_ ?_) <;> simp <;> ext a <;>
      by_cases ha : a = x <;> simp [ha, hA, hB]
  · rw [if_neg (by simp [hB]), if_pos (by simp [hB])]
    refine Prod.ext ?_ (Prod.ext ?_ ?_) <;> simp <;> ext a <;>
      by_cases ha : a = x <;> simp [ha, hA, hB]
  · rw [if_neg (by simp [hB]), if_pos (by simp [hB])]
    refine Prod.ext ?_ (Prod.ext ?_ ?_) <;> simp <;> ext a <;>
      by_cases ha : a = x <;> simp [ha, hA, hB]

theorem equalStep_B (y : K) (e : Bool) (pA pB : Finset K) :
    equalStep y ⟨true, e⟩ (pA \ pB) (pB \ pA) (pA ∩ pB) =
      (pA \ insert y pB, insert y pB \ pA, pA ∩ insert y pB) := by
  simp only [equalStep, if_true]
  by_cases hB : y ∈ pB <;> by_cases hA : y ∈ pA
  · rw [if_neg (by simp [hB]), if_neg (by simp [hA, hB])]
    refine Prod.ext ?_ (Prod.ext ?_ ?_) <;> simp <;> ext a <;>
      by_cases ha : a = y <;> simp [ha, hA, hB]
  · rw [if_neg (by simp [hB]), if_pos (by simp [hA, hB])]
    refine Prod.ext ?_ (Prod.ext ?_ ?_) <;> simp <;> ext a <;>
      by_cases ha : a = y <;> simp [ha, hA, hB]
  · rw [if_pos (by simp [hA, hB])]
    refine Prod.ext ?_ (Prod.ext ?_ ?_) <;> simp <;> ext a <;>
      by_cases ha : a = y <;> simp [ha, hA, hB]
  · rw [if_neg (by simp [hA]), if_pos (by simp [hA, hB])]
    refine Prod.ext ?_ (Prod.ext ?_ ?_) <;> simp <;> ext a <;>
      by_cases ha : a = y <;> simp [ha, hA, hB]

theorem equalAux_drainB (ys : List K) :
    ∀ pA pB : Finset K,
      equalAux (ys.map (fun k => (k, ⟨true, true⟩))) (pA \ pB) (pB \ pA) (pA ∩ pB) = true ↔
        pA = pB ∪ ys.toFinset := by
  induction ys with
  | nil =>
    intro pA pB
    simp only [List.map_nil, equalAux, beq_iff_eq, Nat.add_eq_zero,
      Finset.card_eq_zero, Finset.sdiff_eq_empty_iff_subset, List.toFinset_nil,
      Finset.union_empty]
    constructor
    · rintro ⟨h1, h2⟩; exact Finset.Subset.antisymm h1 h2
    · rintro rfl; exact ⟨Finset.Subset.refl _, Finset.Subset.refl _⟩
  | cons y ys ih =>
    intro pA pB
    simp only [List.map_cons, equalAux, equalStep_B]
    by_cases hempty : insert y pB \ pA = ∅
    · have hcard : ¬ (True ∧ 0 < (insert y pB \ pA).card) := by
        simp [hempty]
      rw [if_neg (by simpa using hcard)]
      rw [ih pA (insert y pB)]
      constructor
      · intro h
        rw [h]
        ext a; simp
      · intro h
        rw [h]
        ext a; simp
    · have hcard : (0 : ℕ) < (insert y pB \ pA).card := by
        rcases Finset.nonempty_iff_ne_empty.2 hempty with ⟨a, ha⟩
        exact Finset.card_pos.2 ⟨a, ha⟩
      rw [if_pos (by simpa using hcard)]
      simp only [Bool.false_eq_true, false_iff]
      intro h
      rcases Finset.nonempty_iff_ne_empty.2 hempty with ⟨a, ha⟩
      rw [Finset.mem_sdiff] at ha
      have : a ∈ pA := by
        rw [h]
        rcases Finset.mem_insert.1 ha.1 with rfl | hb
        · simp
        · exact Finset.mem_union_left _ hb
      exact ha.2 this

theorem equalAux_drainA (xs : List K) :
    ∀ pA pB : Finset K,
      equalAux (xs.map (fun k => (k, ⟨false, true⟩))) (pA \ pB) (pB \ pA) (pA ∩ pB) = true ↔
        pA ∪ xs.toFinset = pB := by
  induction xs with
  | nil =>
    intro pA pB
    simp only [List.map_nil, equalAux, beq_iff_eq, Nat.add_eq_zero,
      Finset.card_eq_zero, Finset.sdiff_eq_empty_iff_subset, List.toFinset_nil,
      Finset.union_empty]
    constructor
    · rintro ⟨h1, h2⟩; exact Finset.Subset.antisymm h1 h2
    · rintro rfl; exact ⟨Finset.Subset.refl _, Finset.Subset.refl _⟩
  | cons x xs ih =>
    intro pA pB
    simp only [List.map_cons, equalAux, equalStep_A]
    by_cases hempty : insert x pA \ pB = ∅
    · have hcard : ¬ (True ∧ 0 < (insert x pA \ pB).card) := by
        simp [hempty]
      rw [if_neg (by simpa using hcard)]
      rw [ih (insert x pA) pB]
      constructor
      · intro h
        rw [← h]
        ext a; simp
      · intro h
        rw [← h]
        ext a; simp
    · have hcard : (0 : ℕ) < (insert x pA \ pB).card := by
        rcases Finset.nonempty_iff_ne_empty.2 hempty with ⟨a, ha⟩
        exact Finset.card_pos.2 ⟨a, ha⟩
      rw [if_pos (by simpa using hcard)]
      simp only [Bool.false_eq_true, false_iff]
      intro h
      rcases Finset.nonempty_iff_ne_empty.2 hempty with ⟨a, ha⟩
      rw [Finset.mem_sdiff] at ha
      have : a ∈ pB := by
        rw [← h]
        rcases Finset.mem_insert.1 ha.1 with rfl | hb
        · exact Finset.mem_union_right _ (by simp)
        · exact Finset.mem_union_left _ hb
      exact ha.2 this

theorem equalAux_zip (xs : List K) :
    ∀ (ys : List K) (pA pB : Finset K),
      equalAux (zip xs ys) (pA \ pB) (pB \ pA) (pA ∩ pB) = true ↔
        pA ∪ xs.toFinset = pB ∪ ys.toFinset := by
  induction xs with
  | nil =>
    intro ys pA pB
    rw [show zip ([] : List K) ys = ys.map (fun k => (k, ⟨true, true⟩)) from rfl]
    rw [equalAux_drainB]
    simp
  | cons x xs ih =>
    intro ys pA pB
    cases ys with
    | nil =>
      rw [zip_nil_right, equalAux_drainA]
      simp
    | cons y ys =>
      show equalAux ((x, ⟨false, false⟩) :: (y, ⟨true, false⟩) :: zip xs ys) _ _ _ = true ↔ _
      simp only [equalAux, equalStep_A, equalStep_B, Bool.false_eq_true, false_and, if_false]
      rw [ih ys (insert x pA) (insert y pB)]
      constructor
      · intro h
        have := h
        ext a
        have ha := Finset.ext_iff.1 this a
        simp at ha ⊢
        tauto
      · intro h
        ext a
        have ha := Finset.ext_iff.1 h a
        simp at ha ⊢
        tauto

theorem Equal_iff_toFinset_eq (seq1 seq2 : List K) :
    Equal seq1 seq2 = true ↔ seq1.toFinset = seq2.toFinset := by
  have := equalAux_zip seq1 seq2 ∅ ∅
  simpa [Equal] using this

/-- Lookup in the embedded `map[K]int` counter of `EqualCounts` (iterset.go):
a missing key reads as `0`, as in Go. -/
def mapGetInt : List (K × Int) → K → Int
  | [], _ => 0
  | e :: rest, k => if e.1 = k then e.2 else mapGetInt rest k

/-- Deletion in the embedded `map[K]int` counter. -/
def mapEraseKey (m : List (K × Int)) (k : K) : List (K × Int) :=
  m.filter (fun e => decide (e.1 ≠ k))

/-- The counter update of `EqualCounts` (iterset.go): `m[key] += d`, then
`delete(m, key)` when the count reaches zero.  Setting a key in a Go map
replaces its (unique) entry; the entry's position is irrelevant to lookup,
size and emptiness, which are all the map operations `EqualCounts` uses. -/
def ecUpdate (m : List (K × Int)) (key : K) (d : Int) : List (K × Int) :=
  let c := mapGetInt m key + d
  if c = 0 then mapEraseKey m key else (key, c) :: mapEraseKey m key

/-- Loop of `EqualCounts` (iterset.go) over the zipped pairs: fail as soon as
one source is exhausted while the other still yields (`source.empty`),
otherwise increment the key's signed counter for `seq` elements and decrement
it for `keys` elements (`cmp.Or(source.index, -1)`), and finish by testing
that the counter map is empty. -/
def equalCountsAux : List (K × zipSource) → List (K × Int) → Bool
  | [], m => m.isEmpty
  | (key, ⟨idx, emp⟩) :: rest, m =>
    if emp then false
    else equalCountsAux rest (ecUpdate m key (if idx then 1 else -1))

/-- Embeds `EqualCounts` (iterset.go). -/
def EqualCounts (keys seq : List K) : Bool := equalCountsAux (zip keys seq) []

theorem mapGetInt_eraseKey (m : List (K × Int)) (key k : K) :
    mapGetInt (mapEraseKey m key) k = if k = key then 0 else mapGetInt m k := by
  induction m with
  | nil => by_cases h : k = key <;> simp [mapGetInt, mapEraseKey, h]
  | cons e rest ih =>
    rw [mapEraseKey, List.filter_cons]
    by_cases he : e.1 = key
    · rw [if_neg (by simp [he])]
      rw [mapEraseKey] at ih
      rw [ih]
      by_cases hk : k = key
      · simp [hk]
      · have : ¬ e.1 = k := by rw [he]; exact fun h => hk h.symm
        simp [hk, mapGetInt, this]
    · rw [if_pos (by simp [he])]
      by_cases hek : e.1 = k
      · have hk : ¬ k = key := fun h => he (by rw [hek, h])
        simp [mapGetInt, hek, hk]
      · rw [mapGetInt, if_neg hek]
        rw [mapEraseKey] at ih
        rw [ih]
        by_cases hk : k = key <;> simp [hk, mapGetInt, hek]

theorem mapGetInt_ecUpdate (m : List (K × Int)) (key : K) (d : Int) (k : K) :
    mapGetInt (ecUpdate m key d) k =
      if k = key then mapGetInt m key + d else mapGetInt m k := by
  rw [ecUpdate]
  by_cases hc : mapGetInt m key + d = 0
  · simp only [hc, if_pos rfl, if_true]
    rw [mapGetInt_eraseKey]
  · simp only [if_neg hc]
    by_cases hk : k = key
    · simp [mapGetInt, hk]
    · have hkk : ¬ key = k := fun h => hk h.symm
      rw [mapGetInt, if_neg hkk, mapGetInt_eraseKey, if_neg hk, if_neg hk]

theorem ecUpdate_nonzero (m : List (K × Int)) (key : K) (d : Int)
    (h : ∀ e ∈ m, e.2 ≠ 0) : ∀ e ∈ ecUpdate m key d, e.2 ≠ 0 := by
  intro e he
  rw [ecUpdate] at he
  by_cases hc : mapGetInt m key + d = 0
  · simp only [hc, if_pos rfl, if_true] at he
    exact h e (List.mem_of_mem_filter he)
  · simp only [if_neg hc] at he
    rcases List.mem_cons.1 he with rfl | he
    · exact hc
    · exact h e (List.mem_of_mem_filter he)

theorem isEmpty_iff_getInt (m : List (K × Int)) (h : ∀ e ∈ m, e.2 ≠ 0) :
    m.isEmpty = true ↔ ∀ k, mapGetInt m k = 0 := by
  cases m with
  | nil => simp [mapGetInt]
  | cons e rest =>
    simp only [List.isEmpty_cons, Bool.false_eq_true, false_iff, not_forall]
    refine ⟨e.1, ?_⟩
    have : mapGetInt (e :: rest) e.1 = e.2 := by
      simp [mapGetInt]
    rw [this]
    exact h e (List.mem_cons_self e rest)

theorem equalCountsAux_zip (xs : List K) :
    ∀ (ys : List K) (m : List (K × Int)), (∀ e ∈ m, e.2 ≠ 0) →
      (equalCountsAux (zip xs ys) m = true ↔
        (xs.length = ys.length ∧
          ∀ k, mapGetInt m k + (ys.count k : Int) - (xs.count k : Int) = 0)) := by
  induction xs with
  | nil =>
    intro ys m hm
    cases ys with
    | nil =>
      show m.isEmpty = true ↔ _
      rw [isEmpty_iff_getInt m hm]
      constructor
      · intro h; exact ⟨rfl, fun k => by simpa using h k⟩
      · intro h k; simpa using h.2 k
    | cons y ys =>
      show equalCountsAux ((y, ⟨true, true⟩) :: _) m = true ↔ _
      simp [equalCountsAux]
  | cons x xs ih =>
    intro ys m hm
    cases ys with
    | nil =>
      show equalCountsAux ((x, ⟨false, true⟩) :: _) m = true ↔ _
      simp [equalCountsAux]
    | cons y ys =>
      show equalCountsAux ((x, ⟨false, false⟩) :: (y, ⟨true, false⟩) :: zip xs ys) m = true ↔ _
      simp only [equalCountsAux, Bool.false_eq_true, if_false, if_true]
      rw [ih ys (ecUpdate (ecUpdate m x (-1)) y 1)
        (ecUpdate_nonzero _ y 1 (ecUpdate_nonzero _ x (-1) hm))]
      have hget : ∀ k, mapGetInt (ecUpdate (ecUpdate m x (-1)) y 1) k =
          mapGetInt m k + (if k = y then 1 else 0) - (if k = x then 1 else 0) := by
        intro k
        rw [mapGetInt_ecUpdate, mapGetInt_ecUpdate, mapGetInt_ecUpdate]
        by_cases hky : k = y
        · subst hky
          by_cases hkx : k = x
          · subst hkx
            simp
          · simp [hkx]
        · by_cases hkx : k = x
          · subst hkx
            simp only [if_neg hky, if_pos rfl, if_true]
            omega
          · simp [hky, hkx]
      have hpoint : ∀ k,
          (mapGetInt (ecUpdate (ecUpdate m x (-1)) y 1) k +
              ((ys.count k : Int)) - ((xs.count k : Int)) = 0) ↔
          (mapGetInt m k + (((y :: ys).count k : Int)) - (((x :: xs).count k : Int)) = 0) := by
        intro k
        rw [hget k]
        by_cases hky : k = y
        · subst hky
          by_cases hkx : k = x
          · subst hkx
            rw [List.count_cons_self, List.count_cons_self]
            push_cast
            constructor <;> intro h <;> omega
          · rw [List.count_cons_self, List.count_cons_of_ne hkx]
            simp only [if_pos rfl, if_true, if_neg hkx]
            push_cast
            constructor <;> intro h <;> omega
        · by_cases hkx : k = x
          · subst hkx
            rw [List.count_cons_of_ne hky, List.count_cons_self]
            simp only [if_neg hky, if_pos rfl, if_true]
            push_cast
            constructor <;> intro h <;> omega
          · rw [List.count_cons_of_ne hky, List.count_cons_of_ne hkx]
            simp only [if_neg hky, if_neg hkx]
            constructor <;> intro h <;> omega
      constructor
      · rintro ⟨hlen, hcnt⟩
        exact ⟨by simpa using hlen, fun k => (hpoint k).1 (hcnt k)⟩
      · rintro ⟨hlen, hcnt⟩
        exact ⟨by simpa using hlen, fun k => (hpoint k).2 (hcnt k)⟩

theorem EqualCounts_iff_perm (keys seq : List K) :
    EqualCounts keys seq = true ↔ keys.Perm seq := by
  rw [EqualCounts, equalCountsAux_zip keys seq [] (by simp)]
  rw [List.perm_iff_count]
  constructor
  · rintro ⟨_, hcnt⟩
    intro k
    have := hcnt k
    simp only [mapGetInt] at this
    omega
  · intro h
    have hlen : keys.length = seq.length := (List.perm_iff_count.2 h).length_eq
    refine ⟨hlen, fun k => ?_⟩
    have := h k
    simp only [mapGetInt]
    omega

/-- Inner `for ok && s.Missing(key)` loop of `difference` (iterset.go): feed
elements pulled from the cursor over `seq` into the seen-set `s` until the
queried key is seen or the cursor is exhausted.  The cursor state is the
remaining suffix `rem` of `seq` (its head is the pending pulled element). -/
def differenceAdvance (key : K) : Finset K → List K → Finset K × List K
  | s, [] => (s, [])
  | s, k :: rest =>
    if key ∉ s then differenceAdvance key (insert k s) rest else (s, k :: rest)

/-- Outer loop of `difference` (iterset.go): for each key, advance the cursor,
then yield the key when it is still missing from the seen-set. -/
def differenceAux (s : Finset K) (rem : List K) : List K → List K
  | [] => []
  | key :: keys =>
    let t := differenceAdvance key s rem
    if key ∉ t.1 then key :: differenceAux t.1 t.2 keys
    else differenceAux t.1 t.2 keys

/-- Embeds the free helper `difference` (iterset.go): the lazy sequence of
`keys` not present in `seq`, growing the seen-set only as needed. -/
def difference (keys seq : List K) : List K := differenceAux ∅ seq keys

theorem differenceAdvance_mem (key : K) :
    ∀ (rem : List K) (s : Finset K),
      key ∈ (differenceAdvance key s rem).1 ↔ key ∈ s ∨ key ∈ rem := by
  intro rem
  induction rem with
  | nil => intro s; simp [differenceAdvance]
  | cons k rest ih =>
    intro s
    by_cases h : key ∈ s
    · simp [differenceAdvance, h]
    · rw [differenceAdvance, if_pos h, ih (insert k s)]
      simp [h, or_comm, or_assoc, or_left_comm]

theorem differenceAdvance_union (key : K) :
    ∀ (rem : List K) (s : Finset K),
      (differenceAdvance key s rem).1 ∪ (differenceAdvance key s rem).2.toFinset =
        s ∪ rem.toFinset := by
  intro rem
  induction rem with
  | nil => intro s; simp [differenceAdvance]
  | cons k rest ih =>
    intro s
    by_cases h : key ∉ s
    · rw [differenceAdvance, if_pos h, ih (insert k s)]
      ext a; simp [or_comm, or_assoc, or_left_comm]
    · rw [differenceAdvance, if_neg h]

theorem differenceAux_filter :
    ∀ (keys : List K) (s : Finset K) (rem : List K),
      differenceAux s rem keys = keys.filter (fun k => decide (k ∉ s ∪ rem.toFinset)) := by
  intro keys
  induction keys with
  | nil => intro s rem; rfl
  | cons key keys ih =>
    intro s rem
    have hmem := differenceAdvance_mem key rem s
    have huni := differenceAdvance_union key rem s
    rw [differenceAux, ih]
    have hcond : (key ∉ (differenceAdvance key s rem).1) ↔ key ∉ s ∪ rem.toFinset := by
      rw [hmem]
      constructor
      · intro h hk
        rcases Finset.mem_union.1 hk with hk | hk
        · exact h (Or.inl hk)
        · exact h (Or.inr (List.mem_toFinset.1 hk))
      · intro h hk
        rcases hk with hk | hk
        · exact h (Finset.mem_union_left _ hk)
        · exact h (Finset.mem_union_right _ (List.mem_toFinset.2 hk))
    have hfilter :
        (keys.filter (fun k => decide (k ∉ (differenceAdvance key s rem).1 ∪
            (differenceAdvance key s rem).2.toFinset))) =
          keys.filter (fun k => decide (k ∉ s ∪ rem.toFinset)) := by
      rw [huni]
    by_cases h : key ∉ s ∪ rem.toFinset
    · rw [if_pos (hcond.2 h), hfilter, List.filter_cons, if_pos (by simpa using h)]
    · rw [if_neg (fun hc => h (hcond.1 hc)), hfilter, List.filter_cons,
        if_neg (by simpa using h)]

theorem difference_eq_filter (keys seq : List K) :
    difference keys seq = keys.filter (fun k => decide (k ∉ seq)) := by
  rw [difference, differenceAux_filter]
  congr 1
  ext k
  simp

/-- Projection of the zipped pairs onto one source: the keys of the pairs
whose tag's `index` equals `b`. -/
def sideKeys (b : Bool) (pairs : List (K × zipSource)) : List K :=
  (pairs.filter (fun p => p.2.index == b)).map Prod.fst

theorem sideKeys_false_zip (keys : List K) :
    ∀ seq : List K, sideKeys false (zip keys seq) = keys := by
  induction keys with
  | nil =>
    intro seq
    show sideKeys false (seq.map fun k => (k, ⟨true, true⟩)) = []
    induction seq with
    | nil => rfl
    | cons s rest ih => simpa [sideKeys, List.filter_cons] using ih
  | cons key keys ih =>
    intro seq
    cases seq with
    | nil =>
      have := ih []
      simp only [zip, sideKeys, List.filter_cons] at this ⊢
      simpa using this
    | cons k seq =>
      have := ih seq
      simp only [zip, sideKeys, List.filter_cons] at this ⊢
      simpa using this

theorem sideKeys_true_zip (keys : List K) :
    ∀ seq : List K, sideKeys true (zip keys seq) = seq := by
  induction keys with
  | nil =>
    intro seq
    show sideKeys true (seq.map fun k => (k, ⟨true, true⟩)) = seq
    induction seq with
    | nil => rfl
    | cons s rest ih => simpa [sideKeys, List.filter_cons] using ih
  | cons key keys ih =>
    intro seq
    cases seq with
    | nil =>
      have := ih []
      simp only [zip, sideKeys, List.filter_cons] at this ⊢
      simpa using this
    | cons k seq =>
      have := ih seq
      simp only [zip, sideKeys, List.filter_cons] at this ⊢
      simpa using this

/-- Loop of the free helper `intersect` (iterset.go) over the zipped pairs:
pop the key from the other source's pending set and yield it on success;
otherwise record it in its own pending set unless the other source is
exhausted, in which case stop once the other source's pending set is empty. -/
def intersectAux : List (K × zipSource) → Finset K → Finset K → List K
  | [], _, _ => []
  | (key, ⟨idx, emp⟩) :: rest, s0, s1 =>
    if idx then
      if key ∈ s0 then key :: intersectAux rest (s0.erase key) s1
      else if ¬emp then intersectAux rest s0 (insert key s1)
      else if s0.card = 0 then []
      else intersectAux rest s0 s1
    else
      if key ∈ s1 then key :: intersectAux rest s0 (s1.erase key)
      else if ¬emp then intersectAux rest (insert key s0) s1
      else if s1.card = 0 then []
      else intersectAux rest s0 s1

/-- Embeds the free helper `intersect` (iterset.go). -/
def intersect (keys seq : List K) : List K := intersectAux (zip keys seq) ∅ ∅

/-- Embeds the free function `Intersect` (iterset.go): successive lazy
`intersect` composition over the additional sequences. -/
def Intersect (keys : List K) (seqs : List (List K)) : List K :=
  seqs.foldl intersect keys

/-- Embeds the free function `Difference` (iterset.go): successive lazy
`difference` composition over the additional sequences. -/
def Difference (keys : List K) (seqs : List (List K)) : List K :=
  seqs.foldl difference keys

/-- Embeds `Size` (iterset.go): count the values of a sequence. -/
def Size : List K → Nat
  | [] => 0
  | _ :: rest => Size rest + 1

theorem Size_eq_length (l : List K) : Size l = l.length := by
  induction l with
  | nil => rfl
  | cons a rest ih => simp [Size, ih]

theorem intersectAux_drainB (ys : List K) :
    ∀ (s0 s1 : Finset K), ys.Nodup →
      intersectAux (ys.map fun k => (k, ⟨true, true⟩)) s0 s1 =
        ys.filter (fun y => decide (y ∈ s0)) := by
  induction ys with
  | nil => intro s0 s1 _; rfl
  | cons y ys ih =>
    intro s0 s1 hnd
    have hhead : y ∉ ys := (List.nodup_cons.1 hnd).1
    have htail : ys.Nodup := (List.nodup_cons.1 hnd).2
    by_cases hy : y ∈ s0
    · rw [List.map_cons]
      show (if (true : Bool) then _ else _) = _
      rw [if_pos rfl, if_pos hy, ih (s0.erase y) s1 htail]
      rw [List.filter_cons, if_pos (by simpa using hy)]
      congr 1
      apply List.filter_congr
      intro a ha
      have hay : a ≠ y := fun h => hhead (h ▸ ha)
      simp [Finset.mem_erase, hay]
    · rw [List.map_cons]
      show (if (true : Bool) then _ else _) = _
      rw [if_pos rfl, if_neg hy, if_neg (by simp)]
      by_cases hcard : s0.card = 0
      · rw [if_pos hcard]
        have hs0 : s0 = ∅ := Finset.card_eq_zero.1 hcard
        subst hs0
        rw [List.filter_cons]
        simp
      · rw [if_neg hcard, ih s0 s1 htail, List.filter_cons, if_neg (by simpa using hy)]

theorem intersectAux_drainA (xs : List K) :
    ∀ (s0 s1 : Finset K), xs.Nodup →
      intersectAux (xs.map fun k => (k, ⟨false, true⟩)) s0 s1 =
        xs.filter (fun x => decide (x ∈ s1)) := by
  induction xs with
  | nil => intro s0 s1 _; rfl
  | cons x xs ih =>
    intro s0 s1 hnd
    have hhead : x ∉ xs := (List.nodup_cons.1 hnd).1
    have htail : xs.Nodup := (List.nodup_cons.1 hnd).2
    by_cases hx : x ∈ s1
    · rw [List.map_cons]
      show (if (false : Bool) = true then _ else _) = _
      rw [if_neg (by simp), if_pos hx, ih s0 (s1.erase x) htail]
      rw [List.filter_cons, if_pos (by simpa using hx)]
      congr 1
      apply List.filter_congr
      intro a ha
      have hax : a ≠ x := fun h => hhead (h ▸ ha)
      simp [Finset.mem_erase, hax]
    · rw [List.map_cons]
      show (if (false : Bool) = true then _ else _) = _
      rw [if_neg (by simp), if_neg hx, if_neg (by simp)]
      by_cases hcard : s1.card = 0
      · rw [if_pos hcard]
        have hs1 : s1 = ∅ := Finset.card_eq_zero.1 hcard
        subst hs1
        rw [List.filter_cons]
        simp
      · rw [if_neg hcard, ih s0 s1 htail, List.filter_cons, if_neg (by simpa using hx)]

theorem length_filter_mem_nodup (l : List K) (s : Finset K) (hnd : l.Nodup) :
    (l.filter (fun a => decide (a ∈ s))).length = (l.toFinset ∩ s).card := by
  induction l with
  | nil => simp
  | cons a rest ih =>
    have hhead : a ∉ rest := (List.nodup_cons.1 hnd).1
    have htail : rest.Nodup := (List.nodup_cons.1 hnd).2
    rw [List.filter_cons]
    by_cases ha : a ∈ s
    · rw [if_pos (by simpa using ha), List.length_cons, ih htail]
      have : (a :: rest).toFinset ∩ s = insert a (rest.toFinset ∩ s) := by
        ext b
        by_cases hb : b = a <;> simp [hb, ha]
      rw [this, Finset.card_insert_of_not_mem (by simp [hhead])]
    · rw [if_neg (by simpa using ha), ih htail]
      have : (a :: rest).toFinset ∩ s = rest.toFinset ∩ s := by
        ext b
        by_cases hb : b = a <;> simp [hb, ha]
      rw [this]

theorem card_inter_insert_left (x : K) (pA B : Finset K) (hx : x ∉ pA) :
    (insert x pA ∩ B).card = (pA ∩ B).card + (if x ∈ B then 1 else 0) := by
  by_cases hxB : x ∈ B
  · rw [Finset.insert_inter_of_mem hxB, if_pos hxB,
      Finset.card_insert_of_not_mem (by simp [hx])]
  · rw [Finset.insert_inter_of_not_mem hxB, if_neg hxB, add_zero]

theorem card_insert_inter_insert (x y : K) (pA pB : Finset K)
    (hx : x ∉ pA) (hy : y ∉ pB) :
    (if x ∈ pB then 1 else 0) + (if y ∈ insert x pA then 1 else 0) + (pA ∩ pB).card =
      (insert x pA ∩ insert y pB).card := by
  rw [card_inter_insert_left x pA (insert y pB) hx]
  rw [Finset.inter_comm pA (insert y pB), card_inter_insert_left y pB pA hy,
    Finset.inter_comm pB pA]
  by_cases hxy : x = y
  · subst hxy
    simp [hx, hy]
    omega
  · have hyx : ¬ y = x := fun h => hxy h.symm
    have h1 : (x ∈ insert y pB) ↔ x ∈ pB := by simp [hxy]
    have h2 : (y ∈ insert x pA) ↔ y ∈ pA := by simp [hyx]
    by_cases hxB : x ∈ pB <;> by_cases hyA : y ∈ pA <;>
      simp [h1, h2, hxB, hyA] <;> omega

theorem card_split_fresh (pA pB : Finset K) (ys : List K)
    (hfresh : ∀ y ∈ ys, y ∉ pB) :
    (ys.toFinset ∩ (pA \ pB)).card + (pA ∩ pB).card = (pA ∩ (pB ∪ ys.toFinset)).card := by
  have hsplit : pA ∩ (pB ∪ ys.toFinset) = (pA ∩ pB) ∪ (ys.toFinset ∩ (pA \ pB)) := by
    ext a
    simp only [Finset.mem_inter, Finset.mem_union, Finset.mem_sdiff, List.mem_toFinset]
    constructor
    · rintro ⟨haA, hB | hys⟩
      · exact Or.inl ⟨haA, hB⟩
      · by_cases haB : a ∈ pB
        · exact Or.inl ⟨haA, haB⟩
        · exact Or.inr ⟨hys, haA, haB⟩
    · rintro (⟨haA, haB⟩ | ⟨hys, haA, _⟩)
      · exact ⟨haA, Or.inl haB⟩
      · exact ⟨haA, Or.inr hys⟩
  have hdisj : Disjoint (pA ∩ pB) (ys.toFinset ∩ (pA \ pB)) := by
    rw [Finset.disjoint_right]
    intro a ha hmem
    have h1 := Finset.mem_inter.1 ha
    have h2 := Finset.mem_sdiff.1 h1.2
    exact h2.2 (Finset.mem_inter.1 hmem).2
  rw [hsplit, Finset.card_union_of_disjoint hdisj, add_comm]

theorem intersectAux_zip_card (xs : List K) :
    ∀ (ys : List K) (pA pB : Finset K),
      xs.Nodup → ys.Nodup → (∀ x ∈ xs, x ∉ pA) → (∀ y ∈ ys, y ∉ pB) →
      (intersectAux (zip xs ys) (pA \ pB) (pB \ pA)).length + (pA ∩ pB).card =
        ((pA ∪ xs.toFinset) ∩ (pB ∪ ys.toFinset)).card := by
  induction xs with
  | nil =>
    intro ys pA pB _ hndy _ hfreshy
    show (intersectAux (ys.map fun k => (k, ⟨true, true⟩)) _ _).length + _ = _
    rw [intersectAux_drainB ys _ _ hndy,
      length_filter_mem_nodup ys (pA \ pB) hndy]
    rw [card_split_fresh pA pB ys hfreshy]
    congr 2
    simp
  | cons x xs ih =>
    intro ys pA pB hndx hndy hfreshx hfreshy
    have hxA : x ∉ pA := hfreshx x (List.mem_cons_self x xs)
    have hheadx : x ∉ xs := (List.nodup_cons.1 hndx).1
    have htailx : xs.Nodup := (List.nodup_cons.1 hndx).2
    cases ys with
    | nil =>
      rw [zip_nil_right, intersectAux_drainA _ _ _ hndx,
        length_filter_mem_nodup _ (pB \ pA) hndx]
      have := card_split_fresh pB pA (x :: xs) hfreshx
      rw [Finset.inter_comm pB pA] at this
      rw [this]
      rw [Finset.inter_comm]
      congr 2
      simp
    | cons y ys =>
      have hyB : y ∉ pB := hfreshy y (List.mem_cons_self y ys)
      have hheady : y ∉ ys := (List.nodup_cons.1 hndy).1
      have htaily : ys.Nodup := (List.nodup_cons.1 hndy).2
      have hfreshx' : ∀ a ∈ xs, a ∉ insert x pA := by
        intro a ha
        simp only [Finset.mem_insert, not_or]
        exact ⟨fun h => hheadx (h ▸ ha), hfreshx a (List.mem_cons_of_mem _ ha)⟩
      have hfreshy' : ∀ a ∈ ys, a ∉ insert y pB := by
        intro a ha
        simp only [Finset.mem_insert, not_or]
        exact ⟨fun h => hheady (h ▸ ha), hfreshy a (List.mem_cons_of_mem _ ha)⟩
      have hIH := ih ys (insert x pA) (insert y pB) htailx htaily hfreshx' hfreshy'
      -- process the two interleaved elements (x from keys, then y from seq)
      show (intersectAux ((x, ⟨false, false⟩) :: (y, ⟨true, false⟩) :: zip xs ys)
          (pA \ pB) (pB \ pA)).length + _ = _
      by_cases hxB : x ∈ pB
      · -- x pops from sets[1]
        have hx1 : x ∈ pB \ pA := Finset.mem_sdiff.2 ⟨hxB, hxA⟩
        have e1 : (pB \ pA).erase x = pB \ insert x pA := by
          ext a
          by_cases ha : a = x <;> simp [ha, hxB]
        have e0 : pA \ pB = insert x pA \ pB := by
          ext a
          by_cases ha : a = x <;> simp [ha, hxB, hxA]
        rw [show intersectAux ((x, ⟨false, false⟩) :: (y, ⟨true, false⟩) :: zip xs ys)
              (pA \ pB) (pB \ pA) =
            x :: intersectAux ((y, ⟨true, false⟩) :: zip xs ys) (pA \ pB) ((pB \ pA).erase x)
          from by rw [intersectAux, if_neg (by simp), if_pos hx1]]
        rw [e1, e0]
        by_cases hyA : y ∈ insert x pA
        · have hy0 : y ∈ insert x pA \ pB := Finset.mem_sdiff.2 ⟨hyA, hyB⟩
          have f0 : (insert x pA \ pB).erase y = insert x pA \ insert y pB := by
            ext a
            by_cases ha : a = y <;> simp [ha, hyA, hyB]
          have f1 : pB \ insert x pA = insert y pB \ insert x pA := by
            ext a
            by_cases ha : a = y <;> simp [ha, hyA, hyB]
          rw [show intersectAux ((y, ⟨true, false⟩) :: zip xs ys)
                (insert x pA \ pB) (pB \ insert x pA) =
              y :: intersectAux (zip xs ys) ((insert x pA \ pB).erase y) (pB \ insert x pA)
            from by rw [intersectAux, if_pos rfl, if_pos hy0]]
          rw [f0, f1, List.length_cons, List.length_cons]
          have harith := card_insert_inter_insert x y pA pB hxA hyB
          rw [if_pos hxB, if_pos hyA] at harith
          have hsetA : pA ∪ (x :: xs).toFinset = insert x pA ∪ xs.toFinset := by
            ext a; simp
          have hsetB : pB ∪ (y :: ys).toFinset = insert y pB ∪ ys.toFinset := by
            ext a; simp
          rw [hsetA, hsetB]
          omega
        · have hy0 : y ∉ insert x pA \ pB := fun h => hyA (Finset.mem_sdiff.1 h).1
          have f1 : insert y (pB \ insert x pA) = insert y pB \ insert x pA := by
            ext a
            by_cases ha : a = y <;> simp [ha, hyA, hyB]
          have f0 : insert x pA \ pB = insert x pA \ insert y pB := by
            ext a
            by_cases ha : a = y <;> simp [ha, hyA, hyB]
          rw [show intersectAux ((y, ⟨true, false⟩) :: zip xs ys)
                (insert x pA \ pB) (pB \ insert x pA) =
              intersectAux (zip xs ys) (insert x pA \ pB) (insert y (pB \ insert x pA))
            from by rw [intersectAux, if_pos rfl, if_neg hy0, if_pos (by simp)]]
          rw [f1, f0, List.length_cons]
          have harith := card_insert_inter_insert x y pA pB hxA hyB
          rw [if_pos hxB, if_neg hyA] at harith
          have hsetA : pA ∪ (x :: xs).toFinset = insert x pA ∪ xs.toFinset := by
            ext a; simp
          have hsetB : pB ∪ (y :: ys).toFinset = insert y pB ∪ ys.toFinset := by
            ext a; simp
          rw [hsetA, hsetB]
          omega
      · -- x is recorded in sets[0]
        have hx1 : x ∉ pB \ pA := fun h => hxB (Finset.mem_sdiff.1 h).1
        have e0 : insert x (pA \ pB) = insert x pA \ pB := by
          ext a
          by_cases ha : a = x <;> simp [ha, hxB, hxA]
        have e1 : pB \ pA = pB \ insert x pA := by
          ext a
          by_cases ha : a = x <;> simp [ha, hxB]
        rw [show intersectAux ((x, ⟨false, false⟩) :: (y, ⟨true, false⟩) :: zip xs ys)
              (pA \ pB) (pB \ pA) =
            intersectAux ((y, ⟨true, false⟩) :: zip xs ys) (insert x (pA \ pB)) (pB \ pA)
          from by rw [intersectAux, if_neg (by simp), if_neg hx1, if_pos (by simp)]]
        rw [e0, e1]
        by_cases hyA : y ∈ insert x pA
        · have hy0 : y ∈ insert x pA \ pB := Finset.mem_sdiff.2 ⟨hyA, hyB⟩
          have f0 : (insert x pA \ pB).erase y = insert x pA \ insert y pB := by
            ext a
            by_cases ha : a = y <;> simp [ha, hyA, hyB]
          have f1 : pB \ insert x pA = insert y pB \ insert x pA := by
            ext a
            by_cases ha : a = y <;> simp [ha, hyA, hyB]
          rw [show intersectAux ((y, ⟨true, false⟩) :: zip xs ys)
                (insert x pA \ pB) (pB \ insert x pA) =
              y :: intersectAux (zip xs ys) ((insert x pA \ pB).erase y) (pB \ insert x pA)
            from by rw [intersectAux, if_pos rfl, if_pos hy0]]
          rw [f0, f1, List.length_cons]
          have harith := card_insert_inter_insert x y pA pB hxA hyB
          rw [if_neg hxB, if_pos hyA] at harith
          have hsetA : pA ∪ (x :: xs).toFinset = insert x pA ∪ xs.toFinset := by
            ext a; simp
          have hsetB : pB ∪ (y :: ys).toFinset = insert y pB ∪ ys.toFinset := by
            ext a; simp
          rw [hsetA, hsetB]
          omega
        · have hy0 : y ∉ insert x pA \ pB := fun h => hyA (Finset.mem_sdiff.1 h).1
          have f1 : insert y (pB \ insert x pA) = insert y pB \ insert x pA := by
            ext a
            by_cases ha : a = y <;> simp [ha, hyA, hyB]
          have f0 : insert x pA \ pB = insert x pA \ insert y pB := by
            ext a
            by_cases ha : a = y <;> simp [ha, hyA, hyB]
          rw [show intersectAux ((y, ⟨true, false⟩) :: zip xs ys)
                (insert x pA \ pB) (pB \ insert x pA) =
              intersectAux (zip xs ys) (insert x pA \ pB) (insert y (pB \ insert x pA))
            from by rw [intersectAux, if_pos rfl, if_neg hy0, if_pos (by simp)]]
          rw [f1, f0]
          have harith := card_insert_inter_insert x y pA pB hxA hyB
          rw [if_neg hxB, if_neg hyA] at harith
          have hsetA : pA ∪ (x :: xs).toFinset = insert x pA ∪ xs.toFinset := by
            ext a; simp
          have hsetB : pB ∪ (y :: ys).toFinset = insert y pB ∪ ys.toFinset := by
            ext a; simp
          rw [hsetA, hsetB]
          omega

theorem intersect_length_nodup (A B : List K) (hA : A.Nodup) (hB : B.Nodup) :
    (intersect A B).length = (A.toFinset ∩ B.toFinset).card := by
  have := intersectAux_zip_card A B ∅ ∅ hA hB (by simp) (by simp)
  simpa [intersect] using this

theorem intersectAux_count_le_false (pairs : List (K × zipSource)) :
    ∀ (s0 s1 : Finset K) (k : K),
      (intersectAux pairs s0 s1).count k ≤
        (sideKeys false pairs).count k + (if k ∈ s0 then 1 else 0) := by
  induction pairs with
  | nil => intro s0 s1 k; simp [intersectAux, sideKeys]
  | cons p rest ih =>
    rcases p with ⟨key, idx, emp⟩
    intro s0 s1 k
    cases idx with
    | true =>
      have hside : sideKeys false ((key, ⟨true, emp⟩) :: rest) = sideKeys false rest := by
        simp [sideKeys, List.filter_cons]
      rw [hside]
      rw [intersectAux, if_pos rfl]
      by_cases hkey : key ∈ s0
      · rw [if_pos hkey]
        by_cases hk : k = key
        · subst hk
          rw [List.count_cons_self]
          have := ih (s0.erase k) s1 k
          rw [if_neg (by simp)] at this
          rw [if_pos hkey]
          omega
        · rw [List.count_cons_of_ne hk]
          have := ih (s0.erase key) s1 k
          have hif : (if k ∈ s0.erase key then 1 else 0) = (if k ∈ s0 then 1 else 0) := by
            by_cases h2 : k ∈ s0 <;> simp [Finset.mem_erase, h2, hk]
          rw [hif] at this
          exact this
      · rw [if_neg hkey]
        by_cases hemp : ¬emp
        · rw [if_pos hemp]
          exact ih s0 (insert key s1) k
        · rw [if_neg hemp]
          by_cases hcard : s0.card = 0
          · rw [if_pos hcard]; simp
          · rw [if_neg hcard]
            exact ih s0 s1 k
    | false =>
      have hside : sideKeys false ((key, ⟨false, emp⟩) :: rest) =
          key :: sideKeys false rest := by
        simp [sideKeys, List.filter_cons]
      rw [hside]
      rw [intersectAux, if_neg (by simp)]
      by_cases hkey : key ∈ s1
      · rw [if_pos hkey]
        by_cases hk : k = key
        · subst hk
          rw [List.count_cons_self, List.count_cons_self]
          have := ih s0 (s1.erase k) k
          omega
        · rw [List.count_cons_of_ne hk, List.count_cons_of_ne hk]
          exact ih s0 (s1.erase key) k
      · rw [if_neg hkey]
        by_cases hemp : ¬emp
        · rw [if_pos hemp]
          have := ih (insert key s0) s1 k
          by_cases hk : k = key
          · subst hk
            rw [List.count_cons_self]
            rw [if_pos (Finset.mem_insert_self k s0)] at this
            omega
          · rw [List.count_cons_of_ne hk]
            have hif : (if k ∈ insert key s0 then 1 else 0) = (if k ∈ s0 then 1 else 0) := by
              by_cases h2 : k ∈ s0 <;> simp [Finset.mem_insert, h2, hk]
            rw [hif] at this
            omega
        · rw [if_neg hemp]
          by_cases hcard : s1.card = 0
          · rw [if_pos hcard]; simp
          · rw [if_neg hcard]
            have := ih s0 s1 k
            by_cases hk : k = key
            · subst hk; rw [List.count_cons_self]; omega
            · rw [List.count_cons_of_ne hk]; omega

theorem intersectAux_count_le_true (pairs : List (K × zipSource)) :
    ∀ (s0 s1 : Finset K) (k : K),
      (intersectAux pairs s0 s1).count k ≤
        (sideKeys true pairs).count k + (if k ∈ s1 then 1 else 0) := by
  induction pairs with
  | nil => intro s0 s1 k; simp [intersectAux, sideKeys]
  | cons p rest ih =>
    rcases p with ⟨key, idx, emp⟩
    intro s0 s1 k
    cases idx with
    | false =>
      have hside : sideKeys true ((key, ⟨false, emp⟩) :: rest) = sideKeys true rest := by
        simp [sideKeys, List.filter_cons]
      rw [hside]
      rw [intersectAux, if_neg (by simp)]
      by_cases hkey : key ∈ s1
      · rw [if_pos hkey]
        by_cases hk : k = key
        · subst hk
          rw [List.count_cons_self]
          have := ih s0 (s1.erase k) k
          rw [if_neg (by simp)] at this
          rw [if_pos hkey]
          omega
        · rw [List.count_cons_of_ne hk]
          have := ih s0 (s1.erase key) k
          have hif : (if k ∈ s1.erase key then 1 else 0) = (if k ∈ s1 then 1 else 0) := by
            by_cases h2 : k ∈ s1 <;> simp [Finset.mem_erase, h2, hk]
          rw [hif] at this
          exact this
      · rw [if_neg hkey]
        by_cases hemp : ¬emp
        · rw [if_pos hemp]
          exact ih (insert key s0) s1 k
        · rw [if_neg hemp]
          by_cases hcard : s1.card = 0
          · rw [if_pos hcard]; simp
          · rw [if_neg hcard]
            exact ih s0 s1 k
    | true =>
      have hside : sideKeys true ((key, ⟨true, emp⟩) :: rest) =
          key :: sideKeys true rest := by
        simp [sideKeys, List.filter_cons]
      rw [hside]
      rw [intersectAux, if_pos rfl]
      by_cases hkey : key ∈ s0
      · rw [if_pos hkey]
        by_cases hk : k = key
        · subst hk
          rw [List.count_cons_self, List.count_cons_self]
          have := ih (s0.erase k) s1 k
          omega
        · rw [List.count_cons_of_ne hk, List.count_cons_of_ne hk]
          exact ih (s0.erase key) s1 k
      · rw [if_neg hkey]
        by_cases hemp : ¬emp
        · rw [if_pos hemp]
          have := ih s0 (insert key s1) k
          by_cases hk : k = key
          · subst hk
            rw [List.count_cons_self]
            rw [if_pos (Finset.mem_insert_self k s1)] at this
            omega
          · rw [List.count_cons_of_ne hk]
            have hif : (if k ∈ insert key s1 then 1 else 0) = (if k ∈ s1 then 1 else 0) := by
              by_cases h2 : k ∈ s1 <;> simp [Finset.mem_insert, h2, hk]
            rw [hif] at this
            omega
        · rw [if_neg hemp]
          by_cases hcard : s0.card = 0
          · rw [if_pos hcard]; simp
          · rw [if_neg hcard]
            have := ih s0 s1 k
            by_cases hk : k = key
            · subst hk; rw [List.count_cons_self]; omega
            · rw [List.count_cons_of_ne hk]; omega

theorem intersect_count_le_min (keys seq : List K) (k : K) :
    (intersect keys seq).count k ≤ min (keys.count k) (seq.count k) := by
  have h0 := intersectAux_count_le_false (zip keys seq) ∅ ∅ k
  have h1 := intersectAux_count_le_true (zip keys seq) ∅ ∅ k
  rw [sideKeys_false_zip keys seq] at h0
  rw [sideKeys_true_zip keys seq] at h1
  simp only [Finset.not_mem_empty, if_neg, if_false, add_zero] at h0 h1
  rw [intersect]
  omega

/-- First loop of the method `MapSet.SymmetricDifference` (iterset.go): keys
present in the receiver are recorded in the matched set `s`, the others are
yielded in order.  Returns the yielded list and the final matched set. -/
def symmetricDifferenceAux (m : List K) (s : Finset K) : List K → List K × Finset K
  | [] => ([], s)
  | key :: keys =>
    if key ∈ m then symmetricDifferenceAux m (insert key s) keys
    else
      let r := symmetricDifferenceAux m s keys
      (key :: r.1, r.2)

/-- Embeds the method `MapSet.SymmetricDifference` (iterset.go), its fast
paths included: an empty receiver returns `keys` unchanged, and the second
loop over the receiver is skipped when every receiver key was matched.  The
receiver map is embedded as its key list (values are irrelevant), iterated in
list order. -/
def SymmetricDifference (m : List K) (keys : List K) : List K :=
  if m.length = 0 then keys
  else
    (symmetricDifferenceAux m ∅ keys).1 ++
      (if m.length = (symmetricDifferenceAux m ∅ keys).2.card then []
       else m.filter (fun key => decide (key ∉ (symmetricDifferenceAux m ∅ keys).2)))

theorem symmetricDifferenceAux_eq (m : List K) (keys : List K) :
    ∀ s : Finset K,
      symmetricDifferenceAux m s keys =
        (keys.filter (fun k => decide (k ∉ m)),
          s ∪ (keys.filter (fun k => decide (k ∈ m))).toFinset) := by
  induction keys with
  | nil => intro s; simp [symmetricDifferenceAux]
  | cons key keys ih =>
    intro s
    by_cases h : key ∈ m
    · rw [symmetricDifferenceAux, if_pos h, ih (insert key s)]
      rw [List.filter_cons, List.filter_cons, if_neg (by simpa using h), if_pos (by simpa using h)]
      refine Prod.ext rfl ?_
      show insert key s ∪ _ = s ∪ _
      ext a
      by_cases ha : a = key <;> simp [ha]
    · rw [symmetricDifferenceAux, if_neg h, ih s]
      rw [List.filter_cons, List.filter_cons, if_pos (by simpa using h), if_neg (by simpa using h)]

theorem SymmetricDifference_eq (m : List K) (keys : List K) (hm : m.Nodup) :
    SymmetricDifference m keys =
      keys.filter (fun k => decide (k ∉ m)) ++ m.filter (fun k => decide (k ∉ keys)) := by
  rw [SymmetricDifference]
  by_cases hnil : m.length = 0
  · rw [if_pos hnil]
    have : m = [] := List.length_eq_zero.1 hnil
    subst this
    simp
  · rw [if_neg hnil, symmetricDifferenceAux_eq m keys ∅]
    set S : Finset K := (∅ : Finset K) ∪ (keys.filter (fun a => decide (a ∈ m))).toFinset with hS
    show keys.filter (fun k => decide (k ∉ m)) ++
        (if m.length = S.card then [] else m.filter (fun key => decide (key ∉ S))) = _
    have hmatched : ∀ k ∈ m, (k ∈ S) ↔ k ∈ keys := by
      intro k hk
      rw [hS]
      simp only [Finset.empty_union, List.mem_toFinset, List.mem_filter, decide_eq_true_eq]
      constructor
      · rintro ⟨h1, _⟩; exact h1
      · intro h1; exact ⟨h1, hk⟩
    have hfilter : m.filter (fun key => decide (key ∉ S)) =
        m.filter (fun k => decide (k ∉ keys)) := by
      apply List.filter_congr
      intro a ha
      have hiff := hmatched a ha
      by_cases hk : a ∈ keys
      · simp [hiff, hk]
      · simp [hiff, hk]
    by_cases hall : m.length = S.card
    · rw [if_pos hall]
      have hsub : S ⊆ m.toFinset := by
        intro a ha
        rw [hS] at ha
        simp only [Finset.empty_union, List.mem_toFinset, List.mem_filter,
          decide_eq_true_eq] at ha
        exact List.mem_toFinset.2 ha.2
      have hcardm : m.toFinset.card = m.length := List.toFinset_card_of_nodup hm
      have heq : S = m.toFinset := Finset.eq_of_subset_of_card_le hsub (by omega)
      have hempty : m.filter (fun k => decide (k ∉ keys)) = [] := by
        rw [← hfilter]
        rw [List.filter_eq_nil_iff]
        intro a ha
        have hmem : a ∈ S := by
          rw [heq]
          exact List.mem_toFinset.2 ha
        simp [hmem]
      rw [hempty, List.append_nil]
    · rw [if_neg hall, hfilter]

section UnionKV

variable {V : Type}

/-- Lookup in the embedded `map[K]V`: the value of the (unique) entry with
the given key. -/
def mapLookup : List (K × V) → K → Option V
  | [], _ => none
  | e :: rest, k => if e.1 = k then some e.2 else mapLookup rest k

/-- Setting a key in the embedded `map[K]V` (one step of `maps.Insert`):
replace the entry when the key is present, append a fresh entry otherwise. -/
def mapSetKV (m : List (K × V)) (k : K) (v : V) : List (K × V) :=
  if k ∈ m.map Prod.fst then m.map (fun e => if e.1 = k then (k, v) else e)
  else m ++ [(k, v)]

/-- Embeds `maps.Insert` (used by `MapSet.Union`, iterset.go): insert every
pair of the sequence in order, later pairs overwriting earlier ones. -/
def mapsInsert (m : List (K × V)) (seq : List (K × V)) : List (K × V) :=
  seq.foldl (fun acc e => mapSetKV acc e.1 e.2) m

/-- Embeds `maps.Clone` (used by `MapSet.Union`, iterset.go): a fresh map with
the same entries; in the pure embedding the fresh copy has the same value. -/
def mapsClone (m : List (K × V)) : List (K × V) := m

/-- Embeds the method `MapSet.Union` (iterset.go): clone the receiver, then
insert every source's pairs in order.  The receiver itself is never written:
all insertions target the clone. -/
def Union (m : List (K × V)) (seqs : List (List (K × V))) : List (K × V) :=
  seqs.foldl mapsInsert (mapsClone m)

theorem mapLookup_cons (e : K × V) (rest : List (K × V)) (q : K) :
    mapLookup (e :: rest) q = if e.1 = q then some e.2 else mapLookup rest q := rfl

theorem mapLookup_replace (k : K) (v : V) :
    ∀ (m : List (K × V)) (q : K),
      mapLookup (m.map (fun e => if e.1 = k then (k, v) else e)) q =
        if q = k then (if k ∈ m.map Prod.fst then some v else none)
        else mapLookup m q := by
  intro m
  induction m with
  | nil =>
    intro q
    by_cases hq : q = k <;> simp [mapLookup, hq]
  | cons e rest ih =>
    intro q
    by_cases he : e.1 = k
    · rw [List.map_cons, if_pos he]
      simp only [mapLookup_cons]
      by_cases hq : q = k
      · subst hq
        simp [he]
      · have hkq : ¬ k = q := fun h => hq h.symm
        have he1q : ¬ e.1 = q := by rw [he]; exact hkq
        rw [if_neg hkq, if_neg hq, if_neg he1q, ih q, if_neg hq]
    · rw [List.map_cons, if_neg he]
      simp only [mapLookup_cons]
      by_cases heq : e.1 = q
      · rw [if_pos heq, if_pos heq]
        have hq : ¬ q = k := fun h => he (heq.trans h)
        rw [if_neg hq]
      · rw [if_neg heq, if_neg heq, ih q]
        by_cases hq : q = k
        · rw [if_pos hq, if_pos hq]
          have hne : ¬ k = e.1 := fun h => he h.symm
          by_cases hmem : k ∈ List.map Prod.fst rest <;> simp [hne, hmem]
        · rw [if_neg hq, if_neg hq]
theorem mapLookup_append (m1 m2 : List (K × V)) (q : K) :
    mapLookup (m1 ++ m2) q = (mapLookup m1 q).or (mapLookup m2 q) := by
  induction m1 with
  | nil => simp [mapLookup]
  | cons e rest ih =>
    by_cases he : e.1 = q
    · simp [mapLookup, he]
    · simp [mapLookup, he, ih]

theorem mapLookup_mapSetKV (m : List (K × V)) (k : K) (v : V) (q : K) :
    mapLookup (mapSetKV m k v) q = if q = k then some v else mapLookup m q := by
  rw [mapSetKV]
  by_cases hmem : k ∈ m.map Prod.fst
  · rw [if_pos hmem, mapLookup_replace, if_pos hmem]
  · rw [if_neg hmem, mapLookup_append]
    by_cases hq : q = k
    · subst hq
      have hnone : mapLookup m q = none := by
        induction m with
        | nil => rfl
        | cons e rest ih2 =>
          rw [mapLookup]
          rw [List.map_cons] at hmem
          have he : ¬ e.1 = q := fun h => hmem (by rw [← h]; exact List.mem_cons_self _ _)
          rw [if_neg he]
          exact ih2 (fun h => hmem (List.mem_cons_of_mem _ h))
      rw [hnone, if_pos rfl]
      simp [mapLookup]
    · rw [if_neg hq]
      have : mapLookup [(k, v)] q = none := by
        rw [mapLookup, if_neg (fun h : k = q => hq h.symm)]
        rfl
      rw [this]
      cases mapLookup m q <;> rfl

theorem mapLookup_mapsInsert (seq : List (K × V)) :
    ∀ (m : List (K × V)) (q : K),
      mapLookup (mapsInsert m seq) q =
        (mapLookup seq.reverse q).or (mapLookup m q) := by
  induction seq with
  | nil => intro m q; simp [mapsInsert, mapLookup]
  | cons e rest ih =>
    intro m q
    show mapLookup (mapsInsert (mapSetKV m e.1 e.2) rest) q = _
    rw [ih (mapSetKV m e.1 e.2) q, mapLookup_mapSetKV]
    rw [List.reverse_cons, mapLookup_append]
    have h1 : mapLookup ([e] : List (K × V)) q = if e.1 = q then some e.2 else none := rfl
    rw [h1]
    by_cases hq : q = e.1
    · rw [if_pos hq, if_pos hq.symm]
      cases mapLookup rest.reverse q <;> rfl
    · rw [if_neg hq, if_neg (fun h : e.1 = q => hq h.symm)]
      cases mapLookup rest.reverse q <;> cases mapLookup m q <;> rfl

theorem Union_lookup (seqs : List (List (K × V))) :
    ∀ (m : List (K × V)) (q : K),
      mapLookup (Union m seqs) q =
        (mapLookup seqs.flatten.reverse q).or (mapLookup m q) := by
  induction seqs with
  | nil => intro m q; simp [Union, mapsClone, mapLookup]
  | cons seq rest ih =>
    intro m q
    show mapLookup (rest.foldl mapsInsert (mapsInsert (mapsClone m) seq)) q = _
    have : rest.foldl mapsInsert (mapsInsert (mapsClone m) seq) =
        Union (mapsInsert m seq) rest := rfl
    rw [this, ih (mapsInsert m seq) q, mapLookup_mapsInsert]
    rw [List.flatten_cons, List.reverse_append, mapLookup_append]
    cases mapLookup rest.flatten.reverse q <;> rfl

end UnionKV

/-- Loop of the method `MapSet.Overlap` (iterset.go): partition the keys into
the matched set `inter` and the unmatched set `diff`.  The receiver map is
embedded as its key list. -/
def overlapAux (m : List K) (inter diff : Finset K) : List K → Finset K × Finset K
  | [] => (inter, diff)
  | key :: keys =>
    if key ∈ m then overlapAux m (insert key inter) diff keys
    else overlapAux m inter (insert key diff) keys

/-- Embeds the method `MapSet.Overlap` (iterset.go): the sizes of the left
difference, the intersection and the right difference, as Go `int` values. -/
def Overlap (m keys : List K) : Int × Int × Int :=
  ((m.length : Int) - ((overlapAux m ∅ ∅ keys).1.card : Int),
    ((overlapAux m ∅ ∅ keys).1.card : Int),
    ((overlapAux m ∅ ∅ keys).2.card : Int))

theorem Overlap_left_add_both (m keys : List K) :
    (Overlap m keys).1 + (Overlap m keys).2.1 = (m.length : Int) := by
  rw [Overlap]
  ring

section SortedAlg

variable {O : Type} [LinearOrder O]

/-- Embeds `cmp.Compare` (Go standard library, used by `SortedDifference`):
`-1` when the first argument is smaller, `+1` when larger, `0` on ties. -/
def cmpCompare (a b : O) : Int :=
  if a < b then -1 else if b < a then 1 else 0

/-- Inner `for ok` loop of `sortedDifferenceFunc` (iterset.go): advance the
lookahead cursor past values smaller than the driving key, tracking the last
comparison result `c`.  The cursor state is the remaining suffix of the
lookahead sequence (its head is the pending value). -/
def sdStep (key : O) (c : Int) : List O → Int × List O
  | [] => (c, [])
  | v :: rest =>
    if cmpCompare key v ≤ 0 then (cmpCompare key v, v :: rest)
    else sdStep key (cmpCompare key v) rest

/-- Outer loop of `sortedDifferenceFunc` (iterset.go): for each driving key,
advance the lookahead (starting each round with `c := 1`) and yield the key
when the final comparison is nonzero. -/
def sortedDifferenceAux : List O → List O → List O
  | _, [] => []
  | rem, key :: keys =>
    if (sdStep key 1 rem).1 ≠ 0 then
      key :: sortedDifferenceAux (sdStep key 1 rem).2 keys
    else sortedDifferenceAux (sdStep key 1 rem).2 keys

/-- Embeds `SortedDifference` (iterset.go): the difference of sorted keys. -/
def SortedDifference (keys seq : List O) : List O := sortedDifferenceAux seq keys

theorem cmpCompare_le_zero (a b : O) : cmpCompare a b ≤ 0 ↔ a ≤ b := by
  rw [cmpCompare]
  rcases lt_trichotomy a b with h | h | h
  · simp [h, le_of_lt h]
  · simp [h, lt_irrefl]
  · rw [if_neg (not_lt_of_gt h), if_pos h]
    simp [not_le_of_gt h]

theorem cmpCompare_eq_zero (a b : O) : cmpCompare a b = 0 ↔ a = b := by
  rw [cmpCompare]
  rcases lt_trichotomy a b with h | h | h
  · rw [if_pos h]
    constructor
    · intro hc; exact absurd hc (by norm_num)
    · intro hab; exact absurd h (by rw [hab]; exact lt_irrefl b)
  · simp [h, lt_irrefl]
  · rw [if_neg (not_lt_of_gt h), if_pos h]
    constructor
    · intro hc; exact absurd hc (by norm_num)
    · intro hab; exact absurd h (by rw [hab]; exact lt_irrefl b)

theorem sdStep_snd (key : O) :
    ∀ (rem : List O) (c : Int),
      (sdStep key c rem).2 = rem.dropWhile (fun v => decide (v < key)) := by
  intro rem
  induction rem with
  | nil => intro c; rfl
  | cons v rest ih =>
    intro c
    by_cases h : cmpCompare key v ≤ 0
    · rw [sdStep, if_pos h]
      have hv : ¬ v < key := not_lt_of_ge ((cmpCompare_le_zero key v).1 h)
      rw [List.dropWhile_cons]
      rw [if_neg (by simpa using hv)]
    · rw [sdStep, if_neg h]
      have hv : v < key := by
        by_contra hc
        exact h ((cmpCompare_le_zero key v).2 (le_of_not_gt hc))
      rw [ih (cmpCompare key v), List.dropWhile_cons, if_pos (by simpa using hv)]

theorem sdStep_fst_eq_zero (key : O) :
    ∀ (rem : List O) (c : Int), rem.Sorted (· ≤ ·) → c ≠ 0 →
      ((sdStep key c rem).1 = 0 ↔ key ∈ rem) := by
  intro rem
  induction rem with
  | nil =>
    intro c _ hc
    simpa [sdStep] using hc
  | cons v rest ih =>
    intro c hsort hc
    have hsort' : rest.Sorted (· ≤ ·) := (List.sorted_cons.1 hsort).2
    have hbound : ∀ b ∈ rest, v ≤ b := (List.sorted_cons.1 hsort).1
    by_cases h : cmpCompare key v ≤ 0
    · rw [sdStep, if_pos h]
      have hkv : key ≤ v := (cmpCompare_le_zero key v).1 h
      rw [cmpCompare_eq_zero]
      constructor
      · intro heq; exact heq ▸ List.mem_cons_self v rest
      · intro hmem
        rcases List.mem_cons.1 hmem with heq | hmem
        · exact heq
        · exact le_antisymm hkv (hbound key hmem)
    · rw [sdStep, if_neg h]
      have hvk : v < key := by
        by_contra hcon
        exact h ((cmpCompare_le_zero key v).2 (le_of_not_gt hcon))
      have hcz : cmpCompare key v ≠ 0 := by
        intro hz
        rw [(cmpCompare_eq_zero key v).1 hz] at hvk
        exact lt_irrefl v hvk
      rw [ih (cmpCompare key v) hsort' hcz]
      constructor
      · intro hmem; exact List.mem_cons_of_mem v hmem
      · intro hmem
        rcases List.mem_cons.1 hmem with heq | hmem
        · exact absurd (heq ▸ hvk) (lt_irrefl key)
        · exact hmem

theorem sortedDifferenceAux_eq :
    ∀ (keys rem : List O), keys.Sorted (· ≤ ·) → rem.Sorted (· ≤ ·) →
      sortedDifferenceAux rem keys = keys.filter (fun k => decide (k ∉ rem)) := by
  intro keys
  induction keys with
  | nil => intro rem _ _; rfl
  | cons key keys ih =>
    intro rem hkeys hrem
    have hkeys' : keys.Sorted (· ≤ ·) := (List.sorted_cons.1 hkeys).2
    have hkbound : ∀ b ∈ keys, key ≤ b := (List.sorted_cons.1 hkeys).1
    have hrem' : ((sdStep key 1 rem).2).Sorted (· ≤ ·) := by
      rw [sdStep_snd]
      exact hrem.sublist (List.dropWhile_sublist _)
    have hmemiff : ∀ b ∈ keys, (b ∈ (sdStep key 1 rem).2 ↔ b ∈ rem) := by
      intro b hb
      rw [sdStep_snd]
      constructor
      · intro hmem
        exact (List.dropWhile_sublist (fun v => decide (v < key))).mem hmem
      · intro hmem
        rw [← List.takeWhile_append_dropWhile (p := fun v => decide (v < key)) (l := rem)]
          at hmem
        rcases List.mem_append.1 hmem with hmem | hmem
        · have := List.mem_takeWhile_imp hmem
          have hlt : b < key := by simpa using this
          exact absurd (hkbound b hb) (not_le_of_gt hlt)
        · exact hmem
    have hyield : ((sdStep key 1 rem).1 = 0 ↔ key ∈ rem) :=
      sdStep_fst_eq_zero key rem 1 hrem (by norm_num)
    rw [List.filter_cons]
    by_cases hmem : key ∈ rem
    · rw [sortedDifferenceAux, if_neg (by simpa using hyield.2 hmem)]
      rw [if_neg (by simpa using hmem)]
      rw [ih (sdStep key 1 rem).2 hkeys' hrem']
      apply List.filter_congr
      intro b hb
      by_cases hbrem : b ∈ rem
      · simp [(hmemiff b hb).2 hbrem, hbrem]
      · have hb2 : b ∉ (sdStep key 1 rem).2 := fun h => hbrem ((hmemiff b hb).1 h)
        simp [hbrem, hb2]
    · rw [sortedDifferenceAux, if_pos (fun h => hmem (hyield.1 h))]
      rw [if_pos (by simpa using hmem)]
      rw [ih (sdStep key 1 rem).2 hkeys' hrem']
      congr 1
      apply List.filter_congr
      intro b hb
      by_cases hbrem : b ∈ rem
      · simp [(hmemiff b hb).2 hbrem, hbrem]
      · have hb2 : b ∉ (sdStep key 1 rem).2 := fun h => hbrem ((hmemiff b hb).1 h)
        simp [hbrem, hb2]

theorem SortedDifference_eq (keys seq : List O)
    (hkeys : keys.Sorted (· ≤ ·)) (hseq : seq.Sorted (· ≤ ·)) :
    SortedDifference keys seq = keys.filter (fun k => decide (k ∉ seq)) :=
  sortedDifferenceAux_eq keys seq hkeys hseq

end SortedAlg

/-- The shared-state variant of the `difference` loop (iterset.go:261-277):
identical to `differenceAux` but also returning the final seen-set, because
the Go `difference` allocates `s := Set[K]()` OUTSIDE the returned closure
(iterset.go:262), so the seen-set is captured by the closure and carried over
from one iteration of the returned sequence to the next.  The pull cursor,
by contrast, is created inside the closure and is fresh per iteration. -/
def differenceRun (s : Finset K) (rem : List K) : List K → List K × Finset K
  | [] => ([], s)
  | key :: keys =>
    let t := differenceAdvance key s rem
    if key ∉ t.1 then
      (key :: (differenceRun t.1 t.2 keys).1, (differenceRun t.1 t.2 keys).2)
    else differenceRun t.1 t.2 keys

theorem differenceRun_fst (keys : List K) :
    ∀ (s : Finset K) (rem : List K),
      (differenceRun s rem keys).1 = differenceAux s rem keys := by
  induction keys with
  | nil => intro s rem; rfl
  | cons key keys ih =>
    intro s rem
    by_cases h : key ∉ (differenceAdvance key s rem).1
    · rw [differenceRun, differenceAux, if_pos h, if_pos h]
      rw [show (key :: (differenceRun (differenceAdvance key s rem).1
          (differenceAdvance key s rem).2 keys).1,
          (differenceRun (differenceAdvance key s rem).1
            (differenceAdvance key s rem).2 keys).2).1 =
        key :: (differenceRun (differenceAdvance key s rem).1
          (differenceAdvance key s rem).2 keys).1 from rfl]
      rw [ih]
    · rw [differenceRun, differenceAux, if_neg h, if_neg h, ih]

theorem differenceRun_snd_subset (keys : List K) :
    ∀ (s : Finset K) (rem : List K),
      (differenceRun s rem keys).2 ⊆ s ∪ rem.toFinset := by
  induction keys with
  | nil => intro s rem; exact Finset.subset_union_left
  | cons key keys ih =>
    intro s rem
    have huni := differenceAdvance_union key rem s
    have hrec := ih (differenceAdvance key s rem).1 (differenceAdvance key s rem).2
    rw [huni] at hrec
    by_cases h : key ∉ (differenceAdvance key s rem).1
    · rw [differenceRun, if_pos h]
      exact hrec
    · rw [differenceRun, if_neg h]
      exact hrec

/-- A composed lazy sequence built from the library's combinators over base
producers.  A base producer carries its elements, whether it is multi-use
(restartable, e.g. backed by a slice or a map), and whether it has already
been consumed.  A `diff` node additionally carries the seen-set its closure
captured: `difference` (iterset.go:262) allocates that set outside the
returned func, so it is persistent state of the returned sequence, shared
across its iterations.  Modelled from the spec: single-use base producers
(§3, §7: "iterating a single-use sequence a second time yields an empty or
truncated result") are external to iterset.go, which only defines the
combinators. -/
inductive SeqExpr (E : Type) where
  | source (elems : List E) (isMultiUse : Bool) (spent : Bool)
  | unique (s : SeqExpr E)
  | diff (seen : Finset E) (a b : SeqExpr E)
  | inter (a b : SeqExpr E)
  deriving DecidableEq

/-- One full iteration of a composed sequence: the list it yields and the
sequence value afterwards.  `Unique` (iterset.go:719) and `intersect`
(iterset.go:302) allocate their dedup sets and pull cursors inside the
yielded closure, so those nodes hold no per-iteration state; `difference`'s
pull cursor is per-iteration but its seen-set is the node's persistent state
(iterset.go:262), threaded through each run; a single-use base becomes
spent. -/
def runSeq : SeqExpr K → List K × SeqExpr K
  | .source elems isMultiUse spent =>
      if spent then ([], .source elems isMultiUse spent)
      else (elems, .source elems isMultiUse (!isMultiUse))
  | .unique s => (Unique (runSeq s).1, .unique (runSeq s).2)
  | .diff seen a b =>
      ((differenceRun seen (runSeq b).1 (runSeq a).1).1,
        .diff (differenceRun seen (runSeq b).1 (runSeq a).1).2 (runSeq a).2 (runSeq b).2)
  | .inter a b =>
      (intersect (runSeq a).1 (runSeq b).1, .inter (runSeq a).2 (runSeq b).2)

/-- Whether every base producer of a composed sequence is multi-use and not
yet consumed. -/
def multiUseOk : SeqExpr K → Bool
  | .source _ isMultiUse spent => isMultiUse && !spent
  | .unique s => multiUseOk s
  | .diff _ a b => multiUseOk a && multiUseOk b
  | .inter a b => multiUseOk a && multiUseOk b

/-- The reachability invariant of the shared seen-sets: every `diff` node's
captured set only holds elements its closure pulled from the lookahead
child, i.e. elements of that child's (restartable) output.  A freshly
composed tree satisfies it with every seen-set empty (iterset.go:262
initializes `s := Set[K]()`). -/
def seenOk : SeqExpr K → Bool
  | .source _ _ _ => true
  | .unique s => seenOk s
  | .diff seen a b => seenOk a && seenOk b && decide (seen ⊆ ((runSeq b).1).toFinset)
  | .inter a b => seenOk a && seenOk b

theorem runSeq_stable (e : SeqExpr K) :
    multiUseOk e = true → seenOk e = true →
      (runSeq ((runSeq e).2)).1 = (runSeq e).1 ∧
      multiUseOk ((runSeq e).2) = true ∧ seenOk ((runSeq e).2) = true := by
  induction e with
  | source elems isMultiUse spent =>
    intro hmu _
    rw [multiUseOk, Bool.and_eq_true] at hmu
    have hspent : spent = false := by
      cases spent
      · rfl
      · exact absurd hmu.2 (by simp)
    subst hspent
    have hmu' : isMultiUse = true := hmu.1
    subst hmu'
    exact ⟨rfl, rfl, rfl⟩
  | unique s ih =>
    intro hmu hs
    rw [multiUseOk] at hmu
    rw [seenOk] at hs
    obtain ⟨h1, h2, h3⟩ := ih hmu hs
    refine ⟨?_, ?_, ?_⟩
    · show Unique ((runSeq ((runSeq s).2)).1) = Unique ((runSeq s).1)
      rw [h1]
    · show multiUseOk ((runSeq s).2) = true
      exact h2
    · show seenOk ((runSeq s).2) = true
      exact h3
  | diff seen a b iha ihb =>
    intro hmu hs
    rw [multiUseOk, Bool.and_eq_true] at hmu
    rw [seenOk, Bool.and_eq_true, Bool.and_eq_true] at hs
    obtain ⟨⟨hsa, hsb⟩, hsubd⟩ := hs
    have hsub : seen ⊆ ((runSeq b).1).toFinset := of_decide_eq_true hsubd
    obtain ⟨ha1, ha2, ha3⟩ := iha hmu.1 hsa
    obtain ⟨hb1, hb2, hb3⟩ := ihb hmu.2 hsb
    have hst1sub : (differenceRun seen ((runSeq b).1) ((runSeq a).1)).2 ⊆
        ((runSeq b).1).toFinset := by
      intro x hx
      have hx2 := differenceRun_snd_subset ((runSeq a).1) seen ((runSeq b).1) hx
      rcases Finset.mem_union.1 hx2 with h | h
      · exact hsub h
      · exact h
    have hsubst : (differenceRun seen ((runSeq b).1) ((runSeq a).1)).2 ⊆
        ((runSeq ((runSeq b).2)).1).toFinset := by
      rw [hb1]
      exact hst1sub
    refine ⟨?_, ?_, ?_⟩
    · show (differenceRun (differenceRun seen ((runSeq b).1) ((runSeq a).1)).2
          ((runSeq ((runSeq b).2)).1) ((runSeq ((runSeq a).2)).1)).1 =
        (differenceRun seen ((runSeq b).1) ((runSeq a).1)).1
      rw [ha1, hb1, differenceRun_fst, differenceRun_fst,
        differenceAux_filter, differenceAux_filter]
      apply List.filter_congr
      intro k _
      have hu1 : (differenceRun seen ((runSeq b).1) ((runSeq a).1)).2 ∪
          ((runSeq b).1).toFinset = ((runSeq b).1).toFinset :=
        Finset.union_eq_right.2 hst1sub
      have hu2 : seen ∪ ((runSeq b).1).toFinset = ((runSeq b).1).toFinset :=
        Finset.union_eq_right.2 hsub
      rw [hu1, hu2]
    · show (multiUseOk ((runSeq a).2) && multiUseOk ((runSeq b).2)) = true
      rw [ha2, hb2]
      rfl
    · show (seenOk ((runSeq a).2) && seenOk ((runSeq b).2) &&
          decide ((differenceRun seen ((runSeq b).1) ((runSeq a).1)).2 ⊆
            ((runSeq ((runSeq b).2)).1).toFinset)) = true
      rw [ha3, hb3, decide_eq_true hsubst]
      rfl
  | inter a b iha ihb =>
    intro hmu hs
    rw [multiUseOk, Bool.and_eq_true] at hmu
    rw [seenOk, Bool.and_eq_true] at hs
    obtain ⟨ha1, ha2, ha3⟩ := iha hmu.1 hs.1
    obtain ⟨hb1, hb2, hb3⟩ := ihb hmu.2 hs.2
    refine ⟨?_, ?_, ?_⟩
    · show intersect ((runSeq ((runSeq a).2)).1) ((runSeq ((runSeq b).2)).1) =
        intersect ((runSeq a).1) ((runSeq b).1)
      rw [ha1, hb1]
    · show (multiUseOk ((runSeq a).2) && multiUseOk ((runSeq b).2)) = true
      rw [ha2, hb2]
      rfl
    · show (seenOk ((runSeq a).2) && seenOk ((runSeq b).2)) = true
      rw [ha3, hb3]
      rfl

theorem length_filter_not_mem_nodup (l : List K) (s : Finset K) (hnd : l.Nodup) :
    (l.filter (fun a => decide (a ∉ s))).length = (l.toFinset \ s).card := by
  induction l with
  | nil => simp
  | cons a rest ih =>
    have hhead : a ∉ rest := (List.nodup_cons.1 hnd).1
    have htail : rest.Nodup := (List.nodup_cons.1 hnd).2
    rw [List.filter_cons]
    by_cases ha : a ∈ s
    · rw [if_neg (by simpa using ha), ih htail]
      have : (a :: rest).toFinset \ s = rest.toFinset \ s := by
        ext b
        by_cases hb : b = a <;> simp [hb, ha]
      rw [this]
    · rw [if_pos (by simpa using ha), List.length_cons, ih htail]
      have : (a :: rest).toFinset \ s = insert a (rest.toFinset \ s) := by
        ext b
        by_cases hb : b = a <;> simp [hb, ha]
      rw [this, Finset.card_insert_of_not_mem (by simp [hhead])]

/-- C1: the method `MapSet.Equal` returns true iff the receiver's key set
equals the set of elements of `keys`, and the free function `Equal` returns
true iff the two sequences have equal element sets — regardless of duplicates
or order on either side.  The receiver map is embedded as its (duplicate-free)
key list. -/
theorem Equal_iff_set_eq (m keys seq1 seq2 : List K) (hm : m.Nodup) :
    (mapSetEqual m keys = true ↔ m.toFinset = keys.toFinset) ∧
    (Equal seq1 seq2 = true ↔ seq1.toFinset = seq2.toFinset) :=
  ⟨mapSetEqual_iff m keys hm, Equal_iff_toFinset_eq seq1 seq2⟩

/-- C1 witness at concrete inputs. -/
theorem Equal_iff_set_eq_witness :
    (["a", "b"] : List String).Nodup ∧
    ((mapSetEqual ["a", "b"] ["b", "a", "b"] = true ↔
        (["a", "b"] : List String).toFinset = ["b", "a", "b"].toFinset) ∧
      (Equal ["a", "c"] ["c", "a", "a"] = true ↔
        (["a", "c"] : List String).toFinset = ["c", "a", "a"].toFinset)) :=
  ⟨by decide, Equal_iff_set_eq ["a", "b"] ["b", "a", "b"] ["a", "c"] ["c", "a", "a"] (by decide)⟩

/-- C2: `zip` emits, for each element of `keys` in order, that element
(tagged source 0, with `empty` set exactly when `seq` had nothing left) and
then, when available, one pulled element of `seq` (tagged source 1); once
`keys` is exhausted the remaining elements of `seq` are drained with
`{source 1, empty}`.  Projecting the tags back out recovers each input
exactly, so every element of both inputs is visited exactly once in this
deterministic order. -/
theorem zip_interleaves (keys seq : List K) :
    zip keys seq =
      (List.zip keys seq).flatMap
          (fun p => [(p.1, ⟨false, false⟩), (p.2, ⟨true, false⟩)]) ++
        (keys.drop seq.length).map (fun k => (k, ⟨false, true⟩)) ++
        (seq.drop keys.length).map (fun k => (k, ⟨true, true⟩)) ∧
    sideKeys false (zip keys seq) = keys ∧
    sideKeys true (zip keys seq) = seq :=
  ⟨zip_eq keys seq, sideKeys_false_zip keys seq, sideKeys_true_zip keys seq⟩

/-- C3: `EqualCounts` returns true iff the two sequences are equal as
multisets (every element occurs the same number of times in both; order
irrelevant). -/
theorem EqualCounts_iff_multiset_eq (keys seq : List K) :
    EqualCounts keys seq = true ↔ (keys : Multiset K) = (seq : Multiset K) := by
  rw [EqualCounts_iff_perm]
  exact (Multiset.coe_eq_coe).symm

/-- C4: `MapSet.SymmetricDifference` yields exactly the elements in exactly
one of the receiver and `keys`: first the `keys`-exclusive elements in
`keys`' order, then the receiver's unmatched remainder in its iteration
order; in particular for the map with keys `{"a","b"}` against `["b","c"]`
it yields `["c","a"]`.  The receiver map is embedded as its (duplicate-free)
key list. -/
theorem SymmetricDifference_spec (m keys : List K) (hm : m.Nodup) :
    SymmetricDifference m keys =
      keys.filter (fun k => decide (k ∉ m)) ++ m.filter (fun k => decide (k ∉ keys)) ∧
    (∀ k, k ∈ SymmetricDifference m keys ↔
      ((k ∈ keys ∧ k ∉ m) ∨ (k ∈ m ∧ k ∉ keys))) ∧
    SymmetricDifference ["a", "b"] ["b", "c"] = ["c", "a"] := by
  refine ⟨SymmetricDifference_eq m keys hm, ?_, by decide⟩
  intro k
  rw [SymmetricDifference_eq m keys hm]
  simp only [List.mem_append, List.mem_filter, decide_eq_true_eq]

/-- C4 witness at the concrete inputs of the claim. -/
theorem SymmetricDifference_spec_witness :
    (["a", "b"] : List String).Nodup ∧
    (SymmetricDifference ["a", "b"] ["b", "c"] =
        ["b", "c"].filter (fun k => decide (k ∉ (["a", "b"] : List String))) ++
          ["a", "b"].filter (fun k => decide (k ∉ (["b", "c"] : List String))) ∧
      (∀ k, k ∈ SymmetricDifference ["a", "b"] ["b", "c"] ↔
        ((k ∈ (["b", "c"] : List String) ∧ k ∉ (["a", "b"] : List String)) ∨
          (k ∈ (["a", "b"] : List String) ∧ k ∉ (["b", "c"] : List String)))) ∧
      SymmetricDifference ["a", "b"] ["b", "c"] = ["c", "a"]) :=
  ⟨by decide, SymmetricDifference_spec ["a", "b"] ["b", "c"] (by decide)⟩

/-- C5: `MapSet.Union` returns a new map that behaves as the clone of the
receiver with each successive source's pairs inserted: a lookup finds the
value of the last source pair with that key (later sources overwriting
earlier ones), falling back to the receiver's own entry, so the receiver's
original entries are all included.  The receiver itself is never written —
the embedded body only inserts into `mapsClone m`. -/
theorem Union_spec {V : Type} (m : List (K × V)) (seqs : List (List (K × V))) :
    (∀ q, mapLookup (Union m seqs) q =
      (mapLookup seqs.flatten.reverse q).or (mapLookup m q)) ∧
    (∀ q v, mapLookup m q = some v → (mapLookup (Union m seqs) q).isSome = true) := by
  constructor
  · exact Union_lookup seqs m
  · intro q v hv
    rw [Union_lookup seqs m q, hv]
    cases mapLookup seqs.flatten.reverse q <;> rfl

/-- C6: `Unique` is idempotent, its output has no repeated element (each
element appears once, at its first occurrence), and over `["b","a","b"]` it
yields `["b","a"]` in that order. -/
theorem Unique_spec (S : List K) :
    Unique (Unique S) = Unique S ∧ (Unique S).Nodup ∧
    Unique ["b", "a", "b"] = ["b", "a"] :=
  ⟨Unique_idem S, Unique_nodup S, by decide⟩

/-- C7 counterexample: the claim asserts that every composed sequence's
iteration allocates its own fresh internal state (dedup set, pull cursor)
rather than sharing it across iterations; but for the `difference`
combinator over the multi-use inputs `["a"]` and `["b"]`, one full
iteration leaves the returned sequence's captured dedup set holding `"b"`
— the next iteration starts from that shared, non-fresh state. -/
theorem diff_shared_seen_counterexample :
    (runSeq (SeqExpr.diff (∅ : Finset String)
        (SeqExpr.source ["a"] true false) (SeqExpr.source ["b"] true false))).2 =
      SeqExpr.diff ({"b"} : Finset String)
        (SeqExpr.source ["a"] true false) (SeqExpr.source ["b"] true false) ∧
    SeqExpr.diff ({"b"} : Finset String)
        (SeqExpr.source ["a"] true false) (SeqExpr.source ["b"] true false) ≠
      SeqExpr.diff (∅ : Finset String)
        (SeqExpr.source ["a"] true false) (SeqExpr.source ["b"] true false) ∧
    multiUseOk (SeqExpr.diff (∅ : Finset String)
        (SeqExpr.source ["a"] true false) (SeqExpr.source ["b"] true false)) = true :=
  ⟨by decide, by decide, by decide⟩

/-- C7 (amended): a composed lazy sequence built by the library's
combinators (`Unique`, `difference`, `intersect`) from multi-use inputs
yields identical results when iterated fully twice — in particular `Size`
computed twice gives the same count.  `Unique` and `intersect` allocate
their internal state afresh inside each iteration; `difference` shares its
captured seen-set across iterations of the same returned sequence
(`seenOk` is the invariant that such a set only holds elements of the
restartable lookahead child's output, true of freshly composed trees whose
seen-sets are empty), and a repeated iteration yields the same elements
because the shared set never changes a membership verdict. -/
theorem multiUse_iteration_stable (e : SeqExpr K)
    (hmu : multiUseOk e = true) (hseen : seenOk e = true) :
    (runSeq ((runSeq e).2)).1 = (runSeq e).1 ∧
    Size ((runSeq ((runSeq e).2)).1) = Size ((runSeq e).1) := by
  obtain ⟨h1, _, _⟩ := runSeq_stable e hmu hseen
  exact ⟨h1, by rw [h1]⟩

/-- C7 witness: `Unique` of a `difference` over multi-use base producers,
with the difference node's captured seen-set in its freshly-constructed
(empty) state. -/
theorem multiUse_iteration_stable_witness :
    multiUseOk (SeqExpr.unique (SeqExpr.diff (∅ : Finset String)
        (SeqExpr.source ["b", "a", "b"] true false)
        (SeqExpr.source ["b"] true false))) = true ∧
    seenOk (SeqExpr.unique (SeqExpr.diff (∅ : Finset String)
        (SeqExpr.source ["b", "a", "b"] true false)
        (SeqExpr.source ["b"] true false))) = true ∧
    ((runSeq ((runSeq (SeqExpr.unique (SeqExpr.diff (∅ : Finset String)
          (SeqExpr.source ["b", "a", "b"] true false)
          (SeqExpr.source ["b"] true false)))).2)).1 =
        (runSeq (SeqExpr.unique (SeqExpr.diff (∅ : Finset String)
          (SeqExpr.source ["b", "a", "b"] true false)
          (SeqExpr.source ["b"] true false)))).1 ∧
      Size ((runSeq ((runSeq (SeqExpr.unique (SeqExpr.diff (∅ : Finset String)
          (SeqExpr.source ["b", "a", "b"] true false)
          (SeqExpr.source ["b"] true false)))).2)).1) =
        Size ((runSeq (SeqExpr.unique (SeqExpr.diff (∅ : Finset String)
          (SeqExpr.source ["b", "a", "b"] true false)
          (SeqExpr.source ["b"] true false)))).1)) :=
  ⟨by decide, by decide,
    multiUse_iteration_stable
      (SeqExpr.unique (SeqExpr.diff (∅ : Finset String)
        (SeqExpr.source ["b", "a", "b"] true false)
        (SeqExpr.source ["b"] true false))) (by decide) (by decide)⟩

/-- C8: on non-decreasing inputs, `SortedDifference` emits in order exactly
the driving keys for which the lookahead sequence has no equal value (or is
exhausted); in particular driving `['b','c']` against lookahead
`['a','b','d']` yields `['c']`. -/
theorem SortedDifference_spec {O : Type} [LinearOrder O] :
    (∀ keys seq : List O, keys.Sorted (· ≤ ·) → seq.Sorted (· ≤ ·) →
      SortedDifference keys seq = keys.filter (fun k => decide (k ∉ seq))) ∧
    SortedDifference ['b', 'c'] ['a', 'b', 'd'] = ['c'] :=
  ⟨fun keys seq hk hs => SortedDifference_eq keys seq hk hs, by decide⟩

/-- C8 witness at the concrete inputs of the claim. -/
theorem SortedDifference_spec_witness :
    (['b', 'c'] : List Char).Sorted (· ≤ ·) ∧
    (['a', 'b', 'd'] : List Char).Sorted (· ≤ ·) ∧
    SortedDifference ['b', 'c'] ['a', 'b', 'd'] =
      ['b', 'c'].filter (fun k => decide (k ∉ (['a', 'b', 'd'] : List Char))) :=
  ⟨by decide, by decide,
    (SortedDifference_spec).1 ['b', 'c'] ['a', 'b', 'd'] (by decide) (by decide)⟩

/-- C9: for duplicate-free sequences, the number of elements yielded by the
free `Intersect` plus the number yielded by the free `Difference` equals the
number of elements of the first sequence; and `Overlap`'s left-only count
plus its both count equals the receiver map's size. -/
theorem inclusion_exclusion_spec (A B m keys : List K) (hA : A.Nodup) (hB : B.Nodup) :
    Size (Intersect A [B]) + Size (Difference A [B]) = Size A ∧
    (Overlap m keys).1 + (Overlap m keys).2.1 = (m.length : Int) := by
  refine ⟨?_, Overlap_left_add_both m keys⟩
  rw [Size_eq_length, Size_eq_length, Size_eq_length]
  show (intersect A B).length + (difference A B).length = A.length
  rw [intersect_length_nodup A B hA hB, difference_eq_filter]
  have hswap : A.filter (fun k => decide (k ∉ B)) =
      A.filter (fun a => decide (a ∉ B.toFinset)) := by
    apply List.filter_congr
    intro a _
    by_cases ha : a ∈ B <;> simp [ha]
  rw [hswap, length_filter_not_mem_nodup A B.toFinset hA,
    Finset.card_inter_add_card_sdiff, List.toFinset_card_of_nodup hA]

/-- C9 witness at concrete inputs. -/
theorem inclusion_exclusion_spec_witness :
    (["a", "b"] : List String).Nodup ∧ (["b", "c"] : List String).Nodup ∧
    (Size (Intersect ["a", "b"] [["b", "c"]]) + Size (Difference ["a", "b"] [["b", "c"]]) =
        Size (["a", "b"] : List String) ∧
      (Overlap ["a", "b"] ["b", "c"]).1 + (Overlap ["a", "b"] ["b", "c"]).2.1 =
        ((["a", "b"] : List String).length : Int)) :=
  ⟨by decide, by decide,
    inclusion_exclusion_spec ["a", "b"] ["b", "c"] ["a", "b"] ["b", "c"]
      (by decide) (by decide)⟩

/-- C10 counterexample: the claim asserts that whenever an element occurs at
least twice in `keys` and at least twice in `seq`, `Intersect` yields it
twice; but for `keys = ["a","a"]` and `seq = ["b","a","a"]` the element
`"a"` occurs twice on both sides yet is yielded only once (the early-exit on
an exhausted source cuts the second match). -/
theorem intersect_twice_counterexample :
    2 ≤ (["a", "a"] : List String).count "a" ∧
    2 ≤ (["b", "a", "a"] : List String).count "a" ∧
    (Intersect ["a", "a"] [["b", "a", "a"]]).count "a" = 1 :=
  ⟨by decide, by decide, by decide⟩

/-- C10 (amended): for some inputs the free `Intersect` emits the same
element more than once — for `keys = ["a","a"]` and `seq = ["a","a"]` it
yields `"a"` twice, so the output is not always duplicate-free — while any
element occurring at most once in either input is yielded at most once. -/
theorem intersect_duplicates_amended (keys seq : List K) (k : K)
    (h : keys.count k ≤ 1 ∨ seq.count k ≤ 1) :
    Intersect ["a", "a"] [["a", "a"]] = ["a", "a"] ∧
    (Intersect keys [seq]).count k ≤ 1 := by
  refine ⟨by decide, ?_⟩
  show (intersect keys seq).count k ≤ 1
  have := intersect_count_le_min keys seq k
  omega

/-- C10 witness at concrete inputs. -/
theorem intersect_duplicates_amended_witness :
    ((["a"] : List String).count "a" ≤ 1 ∨ (["a", "a"] : List String).count "a" ≤ 1) ∧
    (Intersect ["a", "a"] [["a", "a"]] = ["a", "a"] ∧
      (Intersect (["a"] : List String) [["a", "a"]]).count "a" ≤ 1) :=
  ⟨by decide, intersect_duplicates_amended ["a"] ["a", "a"] "a" (by decide)⟩

end Iterset
